/-
Verification of the mechanoreceptor input library core:
the combo sequence matcher (ComboSystem), the input mapping table
(MappingConfigManager) and the timestamped input buffer (InputBuffer),
shallowly embedded from the TypeScript source.

Conventions of the embedding:
* JavaScript timestamps (Date.now()) are modelled as Int, passed
  explicitly to each operation ("now").
* The JS Map used for active sequences is modelled as an association
  list with JS Map semantics: get finds the first entry, set replaces
  in place or appends, delete removes the key.
* A JS TypeError (reading a field of undefined, as happens when
  combo.sequence[i] is out of bounds) is modelled by returning none:
  checkCombos has result type Option.
* Buffer sizes are modelled as Nat (JS uses nonnegative numbers here).
-/
import Mathlib

/-! ## ComboSystem (src ComboSystem.ts) -/

inductive InputType
  | keyboard
  | mouse
  | gamepad
  | touch
deriving DecidableEq, Repr

inductive InputCode
  | str (s : String)
  | num (n : Int)
deriving DecidableEq, Repr

structure ComboInput where
  inputType : InputType
  inputCode : InputCode
  timeWindow : Option Int := none
deriving DecidableEq, Repr

structure ComboDefinition where
  id : String
  sequence : List ComboInput
  maxTimeWindow : Int
deriving DecidableEq, Repr

structure ActiveSeq where
  inputs : List ComboInput
  startTime : Int
deriving DecidableEq, Repr

/-- The activeSequences JS Map, as an association list. -/
abbrev ActsMap := List (String × ActiveSeq)

def mapGet (m : ActsMap) (k : String) : Option ActiveSeq :=
  (m.find? (fun p => decide (p.1 = k))).map (fun p => p.2)

def mapSet (m : ActsMap) (k : String) (v : ActiveSeq) : ActsMap :=
  if m.any (fun p => decide (p.1 = k)) then
    m.map (fun p => if p.1 = k then (k, v) else p)
  else
    m ++ [(k, v)]

def mapDelete (m : ActsMap) (k : String) : ActsMap :=
  m.filter (fun p => decide (p.1 ≠ k))

structure ComboState where
  combos : List ComboDefinition
  activeSequences : ActsMap
deriving DecidableEq, Repr

def initComboState : ComboState := ⟨[], []⟩

/-- matchesInput compares type and code only (timeWindow is ignored),
as in the source. -/
def matchesInput (expected actual : ComboInput) : Bool :=
  decide (expected.inputType = actual.inputType) &&
  decide (expected.inputCode = actual.inputCode)

/-- matchesFirstInput reads combo.sequence[0]; on an empty sequence the
source would read a field of undefined, modelled as none. -/
def matchesFirstInput (combo : ComboDefinition) (input : ComboInput) : Option Bool :=
  (combo.sequence.get? 0).map (fun e => matchesInput e input)

/-- One iteration of the checkCombos main loop, for a single combo.
Returns the optional triggered id and the updated active map; none
models the TypeError when combo.sequence[inputs.length] is undefined. -/
def processCombo (input : ComboInput) (now : Int) (combo : ComboDefinition)
    (acts : ActsMap) : Option (Option String × ActsMap) :=
  match mapGet acts combo.id with
  | none =>
    match matchesFirstInput combo input with
    | none => none
    | some b =>
      some (none, if b then mapSet acts combo.id ⟨[input], now⟩ else acts)
  | some a =>
    match combo.sequence.get? a.inputs.length with
    | none => none
    | some expected =>
      if matchesInput expected input then
        if a.inputs.length + 1 = combo.sequence.length then
          some (if now - a.startTime ≤ combo.maxTimeWindow then some combo.id else none,
                mapDelete acts combo.id)
        else
          some (none, mapSet acts combo.id ⟨a.inputs ++ [input], a.startTime⟩)
      else
        some (none, mapDelete acts combo.id)

/-- The main loop of checkCombos over the registered combo list. -/
def runCombos (input : ComboInput) (now : Int) :
    List ComboDefinition → ActsMap → Option (List String × ActsMap)
  | [], acts => some ([], acts)
  | c :: cs, acts =>
    match processCombo input now c acts with
    | none => none
    | some (t, acts1) =>
      match runCombos input now cs acts1 with
      | none => none
      | some (trigs, acts2) =>
        some ((match t with | some i => [i] | none => []) ++ trigs, acts2)

/-- The expired-sequence sweep at the end of checkCombos. -/
def cleanupActs (combos : List ComboDefinition) (now : Int) (acts : ActsMap) : ActsMap :=
  acts.filter (fun p =>
    match combos.find? (fun c => decide (c.id = p.1)) with
    | some c => decide (¬ now - p.2.startTime > c.maxTimeWindow)
    | none => true)

/-- ComboSystem.checkCombos: none models the TypeError crash on an
out-of-range sequence index. -/
def checkCombos (input : ComboInput) (now : Int) (s : ComboState) :
    Option (List String × ComboState) :=
  match runCombos input now s.combos s.activeSequences with
  | none => none
  | some (trigs, acts) => some (trigs, ⟨s.combos, cleanupActs s.combos now acts⟩)

/-- ComboSystem.addCombo: an unconditional push. -/
def addCombo (combo : ComboDefinition) (s : ComboState) : ComboState :=
  ⟨s.combos ++ [combo], s.activeSequences⟩

/-- ComboSystem.removeCombo: filters the combo list only. -/
def removeCombo (comboId : String) (s : ComboState) : ComboState :=
  ⟨s.combos.filter (fun c => decide (c.id ≠ comboId)), s.activeSequences⟩

/-- Runs checkCombos over a list of (input, now) events, collecting each
call's returned id list. -/
def observeRun : List (ComboInput × Int) → ComboState → Option (List (List String) × ComboState)
  | [], s => some ([], s)
  | (i, t) :: rest, s =>
    match checkCombos i t s with
    | none => none
    | some (tr, s1) =>
      match observeRun rest s1 with
      | none => none
      | some (trs, s2) => some (tr :: trs, s2)

/-! ## MappingConfigManager (src/InputMapping.ts) -/

/-- A JSON-like dynamic value, enough to express the typeof and
Array.isArray checks of validateMappings. Arrays only ever hold the
modifier strings in this code base. -/
inductive JVal
  | jstr (s : String)
  | jnum (n : Int)
  | jbool (b : Bool)
  | jnull
  | jarr (elems : List String)
deriving DecidableEq, Repr

/-- A parsed mapping object; none models an absent (undefined) field. -/
structure RawMapping where
  contextId : Option JVal
  actionId : Option JVal
  inputType : Option JVal
  inputCode : Option JVal
  modifiers : Option JVal
deriving DecidableEq, Repr

def isStringVal : Option JVal → Bool
  | some (JVal.jstr _) => true
  | _ => false

def isRecognizedType : Option JVal → Bool
  | some (JVal.jstr s) =>
    decide (s = "keyboard" ∨ s = "mouse" ∨ s = "gamepad" ∨ s = "touch")
  | _ => false

def isCodeVal : Option JVal → Bool
  | some (JVal.jstr _) => true
  | some (JVal.jnum _) => true
  | _ => false

def isModifiersVal : Option JVal → Bool
  | none => true
  | some (JVal.jarr _) => true
  | _ => false

/-- MappingConfigManager.validateMappings for a single entry. -/
def validateMapping (m : RawMapping) : Bool :=
  isStringVal m.contextId &&
  isStringVal m.actionId &&
  isRecognizedType m.inputType &&
  isCodeVal m.inputCode &&
  isModifiersVal m.modifiers

def validateMappings (ms : List RawMapping) : Bool :=
  ms.all validateMapping

/-- MappingConfigManager.loadMappings on an already-parsed array: the
result of the call together with the stored mapping list after it. -/
def loadMappings (parsed : List RawMapping) (st : List RawMapping) :
    Except String Unit × List RawMapping :=
  if validateMappings parsed then (Except.ok (), parsed)
  else (Except.error "Invalid mapping format", st)

/-- MappingConfigManager.addMapping. -/
def addMapping (m : RawMapping) (st : List RawMapping) :
    Except String Unit × List RawMapping :=
  if validateMappings [m] then (Except.ok (), st ++ [m])
  else (Except.error "Invalid mapping format", st)

/-! ## InputBuffer (src/InputBuffer.ts, timestamped variant) -/

structure TimestampedInput where
  input : String
  timestamp : Int
deriving DecidableEq, Repr

structure InputBufferState where
  buffer : List TimestampedInput
  bufferSize : Nat
  bufferDuration : Int
deriving DecidableEq, Repr

def initBuffer (size : Nat) (duration : Int) : InputBufferState :=
  ⟨[], size, duration⟩

/-- InputBuffer.addInput: push, then a single shift if over capacity. -/
def addInput (i : String) (now : Int) (s : InputBufferState) : InputBufferState :=
  let b := s.buffer ++ [⟨i, now⟩]
  ⟨if s.bufferSize < b.length then b.tail else b, s.bufferSize, s.bufferDuration⟩

/-- InputBuffer.getRecentInputs. -/
def getRecentInputs (duration : Option Int) (now : Int) (s : InputBufferState) :
    List String :=
  match duration with
  | none => s.buffer.map (fun it => it.input)
  | some d =>
    (s.buffer.filter (fun it => decide (now - it.timestamp ≤ d))).map (fun it => it.input)

def clearBuffer (s : InputBufferState) : InputBufferState :=
  ⟨[], s.bufferSize, s.bufferDuration⟩

/-- The while-loop of setBufferSize: shift from the front until the
length is within the size. -/
def shiftWhileOver (size : Nat) : List TimestampedInput → List TimestampedInput
  | [] => []
  | x :: xs => if size < xs.length + 1 then shiftWhileOver size xs else x :: xs

def setBufferSize (size : Nat) (s : InputBufferState) : InputBufferState :=
  ⟨shiftWhileOver size s.buffer, size, s.bufferDuration⟩

def setBufferDuration (d : Int) (s : InputBufferState) : InputBufferState :=
  ⟨s.buffer, s.bufferSize, d⟩

inductive BufOp
  | add (input : String) (now : Int)
  | clear
  | setSize (size : Nat)
  | setDuration (d : Int)
deriving DecidableEq, Repr

def applyBufOp : BufOp → InputBufferState → InputBufferState
  | BufOp.add i now, s => addInput i now s
  | BufOp.clear, s => clearBuffer s
  | BufOp.setSize n, s => setBufferSize n s
  | BufOp.setDuration d, s => setBufferDuration d s

def runBufOps (ops : List BufOp) (s : InputBufferState) : InputBufferState :=
  ops.foldl (fun st op => applyBufOp op st) s

/-! ## Abstractions of one checkCombos step for a single definition -/

/-- The active entry of one definition after the main loop of a single
checkCombos call (before the expiry sweep), as a function of its entry
before the call. -/
def dstepEntry (D : ComboDefinition) (input : ComboInput) (now : Int) :
    Option ActiveSeq → Option ActiveSeq
  | none =>
    match D.sequence.get? 0 with
    | some e0 => if matchesInput e0 input then some ⟨[input], now⟩ else none
    | none => none
  | some a =>
    match D.sequence.get? a.inputs.length with
    | some expected =>
      if matchesInput expected input then
        if a.inputs.length + 1 = D.sequence.length then none
        else some ⟨a.inputs ++ [input], a.startTime⟩
      else none
    | none => none

/-- Whether a single checkCombos call reports one definition's id, as a
function of its active entry before the call. -/
def dstepTrig (D : ComboDefinition) (input : ComboInput) (now : Int) :
    Option ActiveSeq → Bool
  | none => false
  | some a =>
    match D.sequence.get? a.inputs.length with
    | some expected =>
      matchesInput expected input &&
      decide (a.inputs.length + 1 = D.sequence.length) &&
      decide (now - a.startTime ≤ D.maxTimeWindow)
    | none => false

/-- Number of matched steps currently stored for definition D. -/
def elenD (D : ComboDefinition) (s : ComboState) : Nat :=
  match mapGet s.activeSequences D.id with
  | none => 0
  | some a => a.inputs.length

/-- Well-formedness of a matcher state: every definition has at least
two steps, ids are pairwise distinct, the active map has distinct keys
each belonging to a registered definition, and every active match is a
strict partial match of its definition. -/
def StateWF (s : ComboState) : Prop :=
  (∀ c ∈ s.combos, 2 ≤ c.sequence.length) ∧
  (s.combos.map (fun c => c.id)).Nodup ∧
  (s.activeSequences.map Prod.fst).Nodup ∧
  (∀ p ∈ s.activeSequences, ∃ c ∈ s.combos, c.id = p.1) ∧
  (∀ p ∈ s.activeSequences, ∀ c ∈ s.combos, c.id = p.1 →
    1 ≤ p.2.inputs.length ∧ p.2.inputs.length < c.sequence.length)

instance (s : ComboState) : Decidable (StateWF s) := by
  unfold StateWF; infer_instance

/-- States reachable from the empty matcher through addCombo and
checkCombos, where every added definition has at least two steps and a
fresh id. -/
inductive ReachAC : ComboState → Prop
  | init : ReachAC initComboState
  | add {s : ComboState} {c : ComboDefinition} :
      ReachAC s → 2 ≤ c.sequence.length → (∀ d ∈ s.combos, d.id ≠ c.id) →
      ReachAC (addCombo c s)
  | check {s : ComboState} {input : ComboInput} {now : Int}
      {tr : List String} {s' : ComboState} :
      ReachAC s → checkCombos input now s = some (tr, s') → ReachAC s'

/-! ## Association-list map lemmas -/


theorem mapGet_nil (k : String) : mapGet [] k = none := rfl

theorem mapGet_cons (p : String × ActiveSeq) (m : ActsMap) (k : String) :
    mapGet (p :: m) k = if p.1 = k then some p.2 else mapGet m k := by
  unfold mapGet
  simp only [List.find?]
  by_cases h : p.1 = k
  · simp [h]
  · simp [h]

theorem mapGet_mem {m : ActsMap} {k : String} {a : ActiveSeq}
    (h : mapGet m k = some a) : (k, a) ∈ m := by
  induction m with
  | nil => simp [mapGet_nil] at h
  | cons p m ih =>
    rw [mapGet_cons] at h
    by_cases hp : p.1 = k
    · rw [if_pos hp] at h
      have hpe : p = (k, a) := by
        cases p with
        | mk p1 p2 =>
          simp only at hp
          simp only [Option.some.injEq] at h
          rw [hp, h]
      rw [hpe]
      exact List.mem_cons_self _ _
    · rw [if_neg hp] at h
      exact List.mem_cons_of_mem _ (ih h)

theorem mapGet_eq_none_of_not_mem {m : ActsMap} {k : String}
    (h : k ∉ m.map Prod.fst) : mapGet m k = none := by
  induction m with
  | nil => rfl
  | cons p m ih =>
    rw [mapGet_cons]
    simp only [List.map_cons, List.mem_cons, not_or] at h
    rw [if_neg (fun he => h.1 he.symm)]
    exact ih h.2

theorem mapGet_replace_self (m : ActsMap) (k : String) (v : ActiveSeq)
    (h : ∃ p ∈ m, p.1 = k) :
    mapGet (m.map (fun p => if p.1 = k then (k, v) else p)) k = some v := by
  induction m with
  | nil => simp at h
  | cons q m ih =>
    obtain ⟨p, hp, hpk⟩ := h
    simp only [List.map_cons]
    by_cases hq : q.1 = k
    · rw [if_pos hq, mapGet_cons, if_pos rfl]
    · rw [if_neg hq, mapGet_cons, if_neg hq]
      rcases List.mem_cons.mp hp with hpe | hp2
      · exact absurd (hpe ▸ hpk) hq
      · exact ih ⟨p, hp2, hpk⟩

theorem mapGet_replace_ne (m : ActsMap) (k : String) (v : ActiveSeq)
    (X : String) (h : X ≠ k) :
    mapGet (m.map (fun p => if p.1 = k then (k, v) else p)) X = mapGet m X := by
  induction m with
  | nil => rfl
  | cons q m ih =>
    simp only [List.map_cons]
    by_cases hq : q.1 = k
    · rw [if_pos hq, mapGet_cons, mapGet_cons]
      simp only
      rw [if_neg (Ne.symm h), if_neg (fun he => h (he.symm.trans hq))]
      exact ih
    · rw [if_neg hq, mapGet_cons, mapGet_cons]
      by_cases hx : q.1 = X
      · rw [if_pos hx, if_pos hx]
      · rw [if_neg hx, if_neg hx]
        exact ih

theorem mapGet_append_single_self (m : ActsMap) (k : String) (v : ActiveSeq)
    (h : ∀ p ∈ m, p.1 ≠ k) :
    mapGet (m ++ [(k, v)]) k = some v := by
  induction m with
  | nil => simp [mapGet_cons]
  | cons q m ih =>
    rw [List.cons_append, mapGet_cons, if_neg (h q (by simp))]
    exact ih (fun p hp => h p (by simp [hp]))

theorem mapGet_append_single_ne (m : ActsMap) (k : String) (v : ActiveSeq)
    (X : String) (h : X ≠ k) :
    mapGet (m ++ [(k, v)]) X = mapGet m X := by
  induction m with
  | nil => simp [mapGet_cons, mapGet_nil, Ne.symm h]
  | cons q m ih =>
    rw [List.cons_append, mapGet_cons, mapGet_cons]
    by_cases hx : q.1 = X
    · rw [if_pos hx, if_pos hx]
    · rw [if_neg hx, if_neg hx]
      exact ih

theorem any_key_iff (m : ActsMap) (k : String) :
    (m.any (fun p => decide (p.1 = k))) = true ↔ ∃ p ∈ m, p.1 = k := by
  rw [List.any_eq_true]
  constructor
  · rintro ⟨p, hp, hd⟩
    exact ⟨p, hp, by simpa using hd⟩
  · rintro ⟨p, hp, hd⟩
    exact ⟨p, hp, by simpa using hd⟩

theorem mapGet_mapSet_self (m : ActsMap) (k : String) (v : ActiveSeq) :
    mapGet (mapSet m k v) k = some v := by
  unfold mapSet
  by_cases hany : (m.any (fun p => decide (p.1 = k))) = true
  · rw [if_pos hany]
    exact mapGet_replace_self m k v ((any_key_iff m k).mp hany)
  · rw [if_neg hany]
    apply mapGet_append_single_self
    intro p hp hpk
    exact hany ((any_key_iff m k).mpr ⟨p, hp, hpk⟩)

theorem mapGet_mapSet_ne (m : ActsMap) (k : String) (v : ActiveSeq)
    (X : String) (h : X ≠ k) : mapGet (mapSet m k v) X = mapGet m X := by
  unfold mapSet
  by_cases hany : (m.any (fun p => decide (p.1 = k))) = true
  · rw [if_pos hany]
    exact mapGet_replace_ne m k v X h
  · rw [if_neg hany]
    exact mapGet_append_single_ne m k v X h

theorem mapGet_mapDelete_self (m : ActsMap) (k : String) :
    mapGet (mapDelete m k) k = none := by
  apply mapGet_eq_none_of_not_mem
  intro hmem
  rw [List.mem_map] at hmem
  obtain ⟨p, hp, hpk⟩ := hmem
  have := List.of_mem_filter hp
  simp only [decide_eq_true_eq] at this
  exact this hpk

theorem mapGet_mapDelete_ne (m : ActsMap) (k : String) (X : String)
    (h : X ≠ k) : mapGet (mapDelete m k) X = mapGet m X := by
  unfold mapDelete
  induction m with
  | nil => rfl
  | cons q m ih =>
    by_cases hq : q.1 = k
    · rw [List.filter_cons_of_neg (by simp [hq]), mapGet_cons,
        if_neg (fun he => h (he.symm.trans hq))]
      exact ih
    · rw [List.filter_cons_of_pos (by simp [hq]), mapGet_cons, mapGet_cons]
      by_cases hx : q.1 = X
      · rw [if_pos hx, if_pos hx]
      · rw [if_neg hx, if_neg hx]
        exact ih

theorem mem_mapSet {m : ActsMap} {k : String} {v : ActiveSeq} {p : String × ActiveSeq}
    (h : p ∈ mapSet m k v) : p = (k, v) ∨ p ∈ m := by
  unfold mapSet at h
  by_cases hany : (m.any (fun q => decide (q.1 = k))) = true
  · rw [if_pos hany] at h
    rw [List.mem_map] at h
    obtain ⟨q, hq, hqp⟩ := h
    by_cases hqk : q.1 = k
    · left; rw [if_pos hqk] at hqp; exact hqp.symm
    · right; rw [if_neg hqk] at hqp; exact hqp ▸ hq
  · rw [if_neg hany] at h
    rw [List.mem_append] at h
    rcases h with h | h
    · right; exact h
    · left; simpa using h

theorem mem_mapDelete {m : ActsMap} {k : String} {p : String × ActiveSeq}
    (h : p ∈ mapDelete m k) : p ∈ m :=
  List.mem_of_mem_filter h

theorem keys_nodup_mapSet {m : ActsMap} {k : String} {v : ActiveSeq}
    (h : (m.map Prod.fst).Nodup) : ((mapSet m k v).map Prod.fst).Nodup := by
  unfold mapSet
  by_cases hany : (m.any (fun q => decide (q.1 = k))) = true
  · rw [if_pos hany]
    have : (m.map (fun p => if p.1 = k then (k, v) else p)).map Prod.fst = m.map Prod.fst := by
      rw [List.map_map]
      apply List.map_congr_left
      intro p _
      by_cases hp : p.1 = k
      · simp [hp]
      · simp [hp]
    rw [this]; exact h
  · rw [if_neg hany]
    rw [List.map_append]
    simp only [List.map_cons, List.map_nil]
    rw [List.nodup_append]
    refine ⟨h, List.nodup_singleton k, ?_⟩
    intro x hx
    simp only [List.mem_singleton]
    intro hxk
    rw [List.mem_map] at hx
    obtain ⟨p, hp, hpx⟩ := hx
    exact hany ((any_key_iff m k).mpr ⟨p, hp, hpx.symm ▸ hxk ▸ hpx ▸ rfl⟩)

theorem keys_nodup_mapDelete {m : ActsMap} {k : String}
    (h : (m.map Prod.fst).Nodup) : ((mapDelete m k).map Prod.fst).Nodup := by
  unfold mapDelete
  exact (List.Sublist.map Prod.fst (List.filter_sublist m)).nodup h

theorem keys_nodup_filter {m : ActsMap} {q : String × ActiveSeq → Bool}
    (h : (m.map Prod.fst).Nodup) : ((m.filter q).map Prod.fst).Nodup :=
  (List.Sublist.map Prod.fst (List.filter_sublist m)).nodup h

theorem mapGet_filter {m : ActsMap} (q : String × ActiveSeq → Bool) (k : String)
    (h : (m.map Prod.fst).Nodup) :
    mapGet (m.filter q) k =
      (match mapGet m k with
       | some a => if q (k, a) then some a else none
       | none => none) := by
  induction m with
  | nil => rfl
  | cons p m ih =>
    have hnd : (m.map Prod.fst).Nodup := (List.nodup_cons.mp h).2
    have hnm : p.1 ∉ m.map Prod.fst := (List.nodup_cons.mp h).1
    by_cases hpk : p.1 = k
    · have hknm : k ∉ m.map Prod.fst := hpk ▸ hnm
      rw [mapGet_cons, if_pos hpk]
      have hpkv : (k, p.2) = p := by
        cases p with | mk a b => simp only at hpk ⊢; rw [hpk]
      by_cases hq : q p = true
      · rw [List.filter_cons_of_pos hq, mapGet_cons, if_pos hpk]
        show some p.2 = if q (k, p.2) = true then some p.2 else none
        rw [hpkv, if_pos hq]
      · rw [List.filter_cons_of_neg hq]
        have hnone : mapGet (m.filter q) k = none := by
          apply mapGet_eq_none_of_not_mem
          intro hx
          rw [List.mem_map] at hx
          obtain ⟨r, hr, hrk⟩ := hx
          exact hknm (hrk ▸ List.mem_map_of_mem Prod.fst (List.mem_of_mem_filter hr))
        rw [hnone]
        show none = if q (k, p.2) = true then some p.2 else none
        rw [hpkv, if_neg hq]
    · rw [mapGet_cons, if_neg hpk]
      by_cases hq : q p = true
      · rw [List.filter_cons_of_pos hq, mapGet_cons, if_neg hpk]
        exact ih hnd
      · rw [List.filter_cons_of_neg hq]
        exact ih hnd

/-! ## processCombo characterization -/

theorem processCombo_none_eq {input : ComboInput} {now : Int} {c : ComboDefinition}
    {acts : ActsMap} (hget : mapGet acts c.id = none) :
    processCombo input now c acts =
      match matchesFirstInput c input with
      | none => none
      | some b => some (none, if b then mapSet acts c.id ⟨[input], now⟩ else acts) := by
  unfold processCombo
  rw [hget]

theorem processCombo_some_eq {input : ComboInput} {now : Int} {c : ComboDefinition}
    {acts : ActsMap} {a : ActiveSeq} (hget : mapGet acts c.id = some a) :
    processCombo input now c acts =
      match c.sequence.get? a.inputs.length with
      | none => none
      | some expected =>
        if matchesInput expected input then
          if a.inputs.length + 1 = c.sequence.length then
            some (if now - a.startTime ≤ c.maxTimeWindow then some c.id else none,
                  mapDelete acts c.id)
          else
            some (none, mapSet acts c.id ⟨a.inputs ++ [input], a.startTime⟩)
        else
          some (none, mapDelete acts c.id) := by
  unfold processCombo
  rw [hget]

theorem processCombo_start_eq {input : ComboInput} {now : Int} {c : ComboDefinition}
    {acts : ActsMap} {e0 : ComboInput} (hget : mapGet acts c.id = none)
    (he0 : c.sequence.get? 0 = some e0) :
    processCombo input now c acts =
      some (none, if matchesInput e0 input then mapSet acts c.id ⟨[input], now⟩ else acts) := by
  rw [processCombo_none_eq hget]
  unfold matchesFirstInput
  rw [he0]
  rfl

theorem processCombo_exp_eq {input : ComboInput} {now : Int} {c : ComboDefinition}
    {acts : ActsMap} {a : ActiveSeq} {expected : ComboInput}
    (hget : mapGet acts c.id = some a)
    (hexp : c.sequence.get? a.inputs.length = some expected) :
    processCombo input now c acts =
      (if matchesInput expected input then
        if a.inputs.length + 1 = c.sequence.length then
          some (if now - a.startTime ≤ c.maxTimeWindow then some c.id else none,
                mapDelete acts c.id)
        else
          some (none, mapSet acts c.id ⟨a.inputs ++ [input], a.startTime⟩)
      else
        some (none, mapDelete acts c.id)) := by
  rw [processCombo_some_eq hget, hexp]

theorem dstepEntry_idle_eq {D : ComboDefinition} {input : ComboInput} {now : Int}
    {e0 : ComboInput} (he0 : D.sequence.get? 0 = some e0) :
    dstepEntry D input now none =
      (if matchesInput e0 input then some ⟨[input], now⟩ else none) := by
  simp only [dstepEntry]
  rw [he0]

theorem dstepEntry_some_eq {D : ComboDefinition} {input : ComboInput} {now : Int}
    {a : ActiveSeq} {expected : ComboInput}
    (hexp : D.sequence.get? a.inputs.length = some expected) :
    dstepEntry D input now (some a) =
      (if matchesInput expected input then
        if a.inputs.length + 1 = D.sequence.length then none
        else some ⟨a.inputs ++ [input], a.startTime⟩
      else none) := by
  simp only [dstepEntry]
  rw [hexp]

theorem dstepTrig_idle (D : ComboDefinition) (input : ComboInput) (now : Int) :
    dstepTrig D input now none = false := rfl

theorem dstepTrig_some_eq {D : ComboDefinition} {input : ComboInput} {now : Int}
    {a : ActiveSeq} {expected : ComboInput}
    (hexp : D.sequence.get? a.inputs.length = some expected) :
    dstepTrig D input now (some a) =
      (matchesInput expected input &&
       decide (a.inputs.length + 1 = D.sequence.length) &&
       decide (now - a.startTime ≤ D.maxTimeWindow)) := by
  simp only [dstepTrig]
  rw [hexp]

theorem pc_spec {input : ComboInput} {now : Int} {c : ComboDefinition}
    {acts : ActsMap} {t : Option String} {acts' : ActsMap}
    (h : processCombo input now c acts = some (t, acts')) :
    mapGet acts' c.id = dstepEntry c input now (mapGet acts c.id) ∧
    t = (if dstepTrig c input now (mapGet acts c.id) then some c.id else none) ∧
    (∀ X, X ≠ c.id → mapGet acts' X = mapGet acts X) ∧
    (∀ p ∈ acts', p ∈ acts ∨ p = (c.id, ⟨[input], now⟩) ∨
      ∃ a, mapGet acts c.id = some a ∧ p = (c.id, ⟨a.inputs ++ [input], a.startTime⟩) ∧
        a.inputs.length + 1 < c.sequence.length) ∧
    ((acts.map Prod.fst).Nodup → (acts'.map Prod.fst).Nodup) := by
  cases hget : mapGet acts c.id with
  | none =>
    cases he0 : c.sequence.get? 0 with
    | none =>
      rw [processCombo_none_eq hget] at h
      unfold matchesFirstInput at h
      rw [he0] at h
      simp at h
    | some e0 =>
      rw [processCombo_start_eq hget he0] at h
      simp only [Option.some.injEq, Prod.mk.injEq] at h
      obtain ⟨ht, hacts⟩ := h
      subst ht
      rw [dstepEntry_idle_eq he0, dstepTrig_idle]
      by_cases hm : matchesInput e0 input = true
      · rw [if_pos hm] at hacts
        subst hacts
        rw [if_pos hm]
        refine ⟨mapGet_mapSet_self acts c.id _, by simp, ?_, ?_, ?_⟩
        · intro X hX
          exact mapGet_mapSet_ne acts c.id _ X hX
        · intro p hp
          rcases mem_mapSet hp with h1 | h1
          · right; left; exact h1
          · left; exact h1
        · exact fun hk => keys_nodup_mapSet hk
      · rw [if_neg hm] at hacts
        subst hacts
        rw [if_neg hm]
        exact ⟨hget, by simp, fun X _ => rfl, fun p hp => Or.inl hp, fun hk => hk⟩
  | some a =>
    cases hexp : c.sequence.get? a.inputs.length with
    | none =>
      rw [processCombo_some_eq hget] at h
      rw [hexp] at h
      simp at h
    | some expected =>
      rw [processCombo_exp_eq hget hexp] at h
      have hlt : a.inputs.length < c.sequence.length := (List.get?_eq_some.mp hexp).1
      rw [dstepEntry_some_eq hexp, dstepTrig_some_eq hexp]
      by_cases hm : matchesInput expected input = true
      · rw [if_pos hm] at h
        by_cases hlen : a.inputs.length + 1 = c.sequence.length
        · rw [if_pos hlen] at h
          simp only [Option.some.injEq, Prod.mk.injEq] at h
          obtain ⟨ht, hacts⟩ := h
          subst hacts
          refine ⟨?_, ?_, ?_, ?_, ?_⟩
          · rw [mapGet_mapDelete_self, if_pos hm, if_pos hlen]
          · rw [← ht]
            by_cases htime : now - a.startTime ≤ c.maxTimeWindow
            · simp [hm, hlen, htime]
            · simp [hm, hlen, htime]
          · intro X hX
            exact mapGet_mapDelete_ne acts c.id X hX
          · intro p hp
            left
            exact mem_mapDelete hp
          · exact fun hk => keys_nodup_mapDelete hk
        · rw [if_neg hlen] at h
          simp only [Option.some.injEq, Prod.mk.injEq] at h
          obtain ⟨ht, hacts⟩ := h
          subst ht
          subst hacts
          refine ⟨?_, ?_, ?_, ?_, ?_⟩
          · rw [mapGet_mapSet_self, if_pos hm, if_neg hlen]
          · simp [hm, hlen]
          · intro X hX
            exact mapGet_mapSet_ne acts c.id _ X hX
          · intro p hp
            rcases mem_mapSet hp with h1 | h1
            · right; right
              exact ⟨a, rfl, h1, by omega⟩
            · left; exact h1
          · exact fun hk => keys_nodup_mapSet hk
      · rw [if_neg hm] at h
        simp only [Option.some.injEq, Prod.mk.injEq] at h
        obtain ⟨ht, hacts⟩ := h
        subst ht
        subst hacts
        have hmf : matchesInput expected input = false := by
          simpa using hm
        refine ⟨?_, ?_, ?_, ?_, ?_⟩
        · rw [mapGet_mapDelete_self, if_neg hm]
        · simp [hmf]
        · intro X hX
          exact mapGet_mapDelete_ne acts c.id X hX
        · intro p hp
          left
          exact mem_mapDelete hp
        · exact fun hk => keys_nodup_mapDelete hk

theorem pc_total {input : ComboInput} {now : Int} {c : ComboDefinition} {acts : ActsMap}
    (h2 : 2 ≤ c.sequence.length)
    (hb : ∀ a, mapGet acts c.id = some a → a.inputs.length < c.sequence.length) :
    ∃ t acts', processCombo input now c acts = some (t, acts') := by
  cases hget : mapGet acts c.id with
  | none =>
    cases he0 : c.sequence.get? 0 with
    | none =>
      rw [List.get?_eq_none] at he0
      omega
    | some e0 =>
      rw [processCombo_start_eq hget he0]
      exact ⟨_, _, rfl⟩
  | some a =>
    cases hexp : c.sequence.get? a.inputs.length with
    | none =>
      rw [List.get?_eq_none] at hexp
      have := hb a hget
      omega
    | some expected =>
      rw [processCombo_exp_eq hget hexp]
      by_cases hm : matchesInput expected input = true
      · by_cases hlen : a.inputs.length + 1 = c.sequence.length
        · rw [if_pos hm, if_pos hlen]; exact ⟨_, _, rfl⟩
        · rw [if_pos hm, if_neg hlen]; exact ⟨_, _, rfl⟩
      · rw [if_neg hm]; exact ⟨_, _, rfl⟩

/-! ## runCombos characterization -/

theorem runCombos_cons_inv {input : ComboInput} {now : Int} {c : ComboDefinition}
    {cs : List ComboDefinition} {acts : ActsMap} {tr : List String} {acts' : ActsMap}
    (h : runCombos input now (c :: cs) acts = some (tr, acts')) :
    ∃ t acts1 trigs, processCombo input now c acts = some (t, acts1) ∧
      runCombos input now cs acts1 = some (trigs, acts') ∧
      tr = (match t with | some i => [i] | none => []) ++ trigs := by
  unfold runCombos at h
  split at h
  next => simp at h
  next t acts1 heq =>
    split at h
    next => simp at h
    next trigs acts2 heq2 =>
      simp only [Option.some.injEq, Prod.mk.injEq] at h
      obtain ⟨htr, hacts⟩ := h
      exact ⟨t, acts1, trigs, heq, by rw [heq2, hacts], htr.symm⟩

theorem runCombos_cons_eq {input : ComboInput} {now : Int} {c : ComboDefinition}
    {cs : List ComboDefinition} {acts : ActsMap} {t : Option String} {acts1 : ActsMap}
    {trigs : List String} {acts2 : ActsMap}
    (hc : processCombo input now c acts = some (t, acts1))
    (hrest : runCombos input now cs acts1 = some (trigs, acts2)) :
    runCombos input now (c :: cs) acts =
      some ((match t with | some i => [i] | none => []) ++ trigs, acts2) := by
  unfold runCombos
  simp only [hc, hrest]
  cases t
  · rfl
  · rfl

theorem rc_spec {input : ComboInput} {now : Int} :
    ∀ (cs : List ComboDefinition) (acts : ActsMap) (tr : List String) (acts' : ActsMap),
    runCombos input now cs acts = some (tr, acts') →
    (∀ X, (∀ c ∈ cs, c.id ≠ X) → mapGet acts' X = mapGet acts X) ∧
    (∀ i ∈ tr, ∃ c ∈ cs, i = c.id) ∧
    (∀ p ∈ acts', p ∈ acts ∨ ∃ c ∈ cs, p.1 = c.id ∧ 1 ≤ p.2.inputs.length ∧
      (2 ≤ c.sequence.length → p.2.inputs.length < c.sequence.length)) ∧
    ((acts.map Prod.fst).Nodup → (acts'.map Prod.fst).Nodup) := by
  intro cs
  induction cs with
  | nil =>
    intro acts tr acts' h
    unfold runCombos at h
    simp only [Option.some.injEq, Prod.mk.injEq] at h
    obtain ⟨htr, hacts⟩ := h
    subst htr
    subst hacts
    exact ⟨fun X _ => rfl, by simp, fun p hp => Or.inl hp, fun hk => hk⟩
  | cons c cs ih =>
    intro acts tr acts' h
    obtain ⟨t, acts1, trigs, hc, hrest, htr⟩ := runCombos_cons_inv h
    obtain ⟨hent, htrig, hframe, hmem, hkeys⟩ := pc_spec hc
    obtain ⟨iframe, itrig, imem, ikeys⟩ := ih acts1 trigs acts' hrest
    refine ⟨?_, ?_, ?_, ?_⟩
    · intro X hX
      rw [iframe X (fun c' hc' => hX c' (by simp [hc'])),
        hframe X (fun he => hX c (by simp) he.symm)]
    · intro i hi
      rw [htr, List.mem_append] at hi
      rcases hi with hi | hi
      · refine ⟨c, by simp, ?_⟩
        rw [htrig] at hi
        by_cases hd : dstepTrig c input now (mapGet acts c.id) = true
        · rw [if_pos hd] at hi
          simpa using hi
        · rw [if_neg hd] at hi
          simp at hi
      · obtain ⟨c', hc', hic⟩ := itrig i hi
        exact ⟨c', by simp [hc'], hic⟩
    · intro p hp
      rcases imem p hp with hp1 | ⟨c', hc', hrest2⟩
      · rcases hmem p hp1 with hp2 | hp2 | ⟨a, _, hpa, hlen⟩
        · left; exact hp2
        · right
          refine ⟨c, by simp, ?_⟩
          rw [hp2]
          exact ⟨rfl, by simp, fun h2 => by simp; omega⟩
        · right
          refine ⟨c, by simp, ?_⟩
          rw [hpa]
          refine ⟨rfl, by simp, fun _ => ?_⟩
          simpa using hlen
      · right
        exact ⟨c', by simp [hc'], hrest2⟩
    · exact fun hk => ikeys (hkeys hk)

theorem rc_total {input : ComboInput} {now : Int} :
    ∀ (cs : List ComboDefinition) (acts : ActsMap),
    (∀ c ∈ cs, 2 ≤ c.sequence.length) →
    (cs.map (fun c => c.id)).Nodup →
    (∀ c ∈ cs, ∀ a, mapGet acts c.id = some a → a.inputs.length < c.sequence.length) →
    ∃ tr acts', runCombos input now cs acts = some (tr, acts') := by
  intro cs
  induction cs with
  | nil =>
    intro acts _ _ _
    exact ⟨[], acts, rfl⟩
  | cons c cs ih =>
    intro acts hlen hnd hb
    obtain ⟨t, acts1, hc⟩ :=
      pc_total (hlen c (by simp)) (fun a ha => hb c (by simp) a ha)
    obtain ⟨_, _, hframe, _, _⟩ := pc_spec hc
    have hndt : (cs.map (fun c => c.id)).Nodup := (List.nodup_cons.mp hnd).2
    have hcn : c.id ∉ cs.map (fun c => c.id) := (List.nodup_cons.mp hnd).1
    have hb1 : ∀ c' ∈ cs, ∀ a, mapGet acts1 c'.id = some a →
        a.inputs.length < c'.sequence.length := by
      intro c' hc' a ha
      have hne : c'.id ≠ c.id := by
        intro he
        exact hcn (he ▸ List.mem_map_of_mem (fun c => c.id) hc')
      rw [hframe c'.id hne] at ha
      exact hb c' (by simp [hc']) a ha
    obtain ⟨trigs, acts2, hrest⟩ :=
      ih acts1 (fun c' hc' => hlen c' (by simp [hc'])) hndt hb1
    exact ⟨_, _, runCombos_cons_eq hc hrest⟩

theorem rc_proj {input : ComboInput} {now : Int} {D : ComboDefinition} :
    ∀ (cs : List ComboDefinition) (acts : ActsMap) (tr : List String) (acts' : ActsMap),
    runCombos input now cs acts = some (tr, acts') → D ∈ cs →
    (cs.map (fun c => c.id)).Nodup →
    mapGet acts' D.id = dstepEntry D input now (mapGet acts D.id) ∧
    tr.count D.id = (if dstepTrig D input now (mapGet acts D.id) then 1 else 0) := by
  intro cs
  induction cs with
  | nil => intro _ _ _ _ hD; simp at hD
  | cons c cs ih =>
    intro acts tr acts' h hD hnd
    obtain ⟨t, acts1, trigs, hc, hrest, htr⟩ := runCombos_cons_inv h
    obtain ⟨hent, htrig, hframe, _, _⟩ := pc_spec hc
    have hndt : (cs.map (fun c => c.id)).Nodup := (List.nodup_cons.mp hnd).2
    have hcn : c.id ∉ cs.map (fun c => c.id) := (List.nodup_cons.mp hnd).1
    obtain ⟨sframe, strig, _, _⟩ := rc_spec cs acts1 trigs acts' hrest
    by_cases hid : c.id = D.id
    · have hDc : D = c := by
        rcases List.mem_cons.mp hD with he | he
        · exact he
        · exact absurd (hid ▸ List.mem_map_of_mem (fun c => c.id) he) hcn
      subst hDc
      have hD1 : mapGet acts' D.id = mapGet acts1 D.id := by
        apply sframe
        intro c' hc' he
        exact hcn (he ▸ List.mem_map_of_mem (fun c => c.id) hc')
      have hcount0 : trigs.count D.id = 0 := by
        rw [List.count_eq_zero]
        intro hmem2
        obtain ⟨c', hc', hic⟩ := strig D.id hmem2
        exact hcn (hic ▸ List.mem_map_of_mem (fun c => c.id) hc')
      constructor
      · rw [hD1, hent]
      · rw [htr, List.count_append, hcount0, htrig]
        by_cases hd : dstepTrig D input now (mapGet acts D.id) = true
        · rw [if_pos hd, if_pos hd]
          simp
        · rw [if_neg hd, if_neg hd]
          simp
    · have hDcs : D ∈ cs := by
        rcases List.mem_cons.mp hD with he | he
        · subst he
          exact absurd rfl hid
        · exact he
      have hg1 : mapGet acts1 D.id = mapGet acts D.id :=
        hframe D.id (fun he => hid he.symm)
      obtain ⟨ient, icount⟩ := ih acts1 trigs acts' hrest hDcs hndt
      constructor
      · rw [ient, hg1]
      · rw [htr, List.count_append, htrig]
        have hopt : (match (if dstepTrig c input now (mapGet acts c.id) then some c.id
            else none) with
            | some i => [i] | none => ([] : List String)).count D.id = 0 := by
          by_cases hd : dstepTrig c input now (mapGet acts c.id) = true
          · rw [if_pos hd]
            simp [List.count_singleton', hid]
          · rw [if_neg hd]
            simp
        rw [hopt, icount, hg1]
        omega

/-! ## checkCombos characterization -/

theorem checkCombos_inv {input : ComboInput} {now : Int} {s : ComboState}
    {tr : List String} {s' : ComboState}
    (h : checkCombos input now s = some (tr, s')) :
    ∃ acts, runCombos input now s.combos s.activeSequences = some (tr, acts) ∧
      s' = ⟨s.combos, cleanupActs s.combos now acts⟩ := by
  unfold checkCombos at h
  split at h
  next => simp at h
  next trigs acts heq =>
    simp only [Option.some.injEq, Prod.mk.injEq] at h
    obtain ⟨h1, h2⟩ := h
    exact ⟨acts, by rw [heq, h1], h2.symm⟩

theorem checkCombos_eq {input : ComboInput} {now : Int} {s : ComboState}
    {tr : List String} {acts : ActsMap}
    (h : runCombos input now s.combos s.activeSequences = some (tr, acts)) :
    checkCombos input now s = some (tr, ⟨s.combos, cleanupActs s.combos now acts⟩) := by
  unfold checkCombos
  rw [h]

theorem find?_id_unique {cs : List ComboDefinition} {D : ComboDefinition}
    (hD : D ∈ cs) (hnd : (cs.map (fun c => c.id)).Nodup) :
    cs.find? (fun c => decide (c.id = D.id)) = some D := by
  induction cs with
  | nil => simp at hD
  | cons c cs ih =>
    have hndt : (cs.map (fun c => c.id)).Nodup := (List.nodup_cons.mp hnd).2
    have hcn : c.id ∉ cs.map (fun c => c.id) := (List.nodup_cons.mp hnd).1
    by_cases hid : c.id = D.id
    · have hDc : D = c := by
        rcases List.mem_cons.mp hD with he | he
        · exact he
        · exact absurd (hid ▸ List.mem_map_of_mem (fun c => c.id) he) hcn
      subst hDc
      rw [List.find?_cons_of_pos]
      simp
    · have hDcs : D ∈ cs := by
        rcases List.mem_cons.mp hD with he | he
        · subst he
          exact absurd rfl hid
        · exact he
      rw [List.find?_cons_of_neg]
      · exact ih hDcs hndt
      · simp [hid]

/-- Membership in the active map after the expiry sweep. -/
theorem mem_cleanupActs {combos : List ComboDefinition} {now : Int} {acts : ActsMap}
    {p : String × ActiveSeq} (h : p ∈ cleanupActs combos now acts) :
    p ∈ acts ∧ ∀ c, combos.find? (fun c => decide (c.id = p.1)) = some c →
      now - p.2.startTime ≤ c.maxTimeWindow := by
  unfold cleanupActs at h
  refine ⟨List.mem_of_mem_filter h, ?_⟩
  intro c hc
  have hp := List.of_mem_filter h
  rw [hc] at hp
  simpa using hp

theorem nodup_id_unique {cs : List ComboDefinition}
    (hnd : (cs.map (fun c => c.id)).Nodup) :
    ∀ c ∈ cs, ∀ c' ∈ cs, c.id = c'.id → c = c' := by
  induction cs with
  | nil => intro c hc; simp at hc
  | cons d ds ih =>
    intro c hc c' hc' h5
    have hndt : (ds.map (fun c => c.id)).Nodup := (List.nodup_cons.mp hnd).2
    have hdn : d.id ∉ ds.map (fun c => c.id) := (List.nodup_cons.mp hnd).1
    rcases List.mem_cons.mp hc with he | he
    · rcases List.mem_cons.mp hc' with he' | he'
      · rw [he, he']
      · subst he
        refine absurd ?_ hdn
        rw [h5]
        exact List.mem_map_of_mem (fun c => c.id) he'
    · rcases List.mem_cons.mp hc' with he' | he'
      · subst he'
        refine absurd ?_ hdn
        rw [← h5]
        exact List.mem_map_of_mem (fun c => c.id) he
      · exact ih hndt c he c' he' h5

/-- A single checkCombos call from a well-formed state succeeds and
preserves well-formedness and the combo list. -/
theorem check_total (input : ComboInput) (now : Int) {s : ComboState}
    (hwf : StateWF s) :
    ∃ tr s', checkCombos input now s = some (tr, s') ∧ s'.combos = s.combos ∧
      StateWF s' := by
  obtain ⟨hlen, hnd, hkeys, hcov, hbnd⟩ := hwf
  have hb0 : ∀ c ∈ s.combos, ∀ a, mapGet s.activeSequences c.id = some a →
      a.inputs.length < c.sequence.length := by
    intro c hc a ha
    have := mapGet_mem ha
    exact (hbnd (c.id, a) this c hc rfl).2
  obtain ⟨tr, acts, hrun⟩ := rc_total s.combos s.activeSequences hlen hnd hb0
  obtain ⟨_, _, smem, skeys⟩ := rc_spec s.combos s.activeSequences tr acts hrun
  refine ⟨tr, ⟨s.combos, cleanupActs s.combos now acts⟩, checkCombos_eq hrun, rfl, ?_⟩
  refine ⟨hlen, hnd, ?_, ?_, ?_⟩
  · exact keys_nodup_filter (skeys hkeys)
  · intro p hp
    have hpacts := (mem_cleanupActs hp).1
    rcases smem p hpacts with h1 | ⟨c, hc, h2, _, _⟩
    · exact hcov p h1
    · exact ⟨c, hc, h2.symm⟩
  · intro p hp c hc hcid
    have hpacts := (mem_cleanupActs hp).1
    rcases smem p hpacts with h1 | ⟨c', hc', h2, h3, h4⟩
    · exact hbnd p h1 c hc hcid
    · have hcc : c = c' := by
        have h5 : c.id = c'.id := by rw [hcid, h2]
        exact nodup_id_unique hnd c hc c' hc' h5
      subst hcc
      exact ⟨h3, h4 (hlen c hc')⟩

/-- Projection of one checkCombos call onto a single definition D with a
unique id: the count of D.id in the result and D's active entry after
the call, as functions of D's entry before the call. -/
theorem check_proj {input : ComboInput} {now : Int} {s : ComboState}
    {D : ComboDefinition} {tr : List String} {s' : ComboState}
    (hD : D ∈ s.combos)
    (hnd : (s.combos.map (fun c => c.id)).Nodup)
    (hkeys : (s.activeSequences.map Prod.fst).Nodup)
    (h : checkCombos input now s = some (tr, s')) :
    tr.count D.id = (if dstepTrig D input now (mapGet s.activeSequences D.id) then 1 else 0) ∧
    mapGet s'.activeSequences D.id =
      (match dstepEntry D input now (mapGet s.activeSequences D.id) with
       | some a => if now - a.startTime > D.maxTimeWindow then none else some a
       | none => none) := by
  obtain ⟨acts, hrun, hs'⟩ := checkCombos_inv h
  obtain ⟨hent, hcount⟩ := rc_proj s.combos s.activeSequences tr acts hrun hD hnd
  obtain ⟨_, _, _, skeys⟩ := rc_spec s.combos s.activeSequences tr acts hrun
  refine ⟨hcount, ?_⟩
  rw [hs']
  show mapGet (cleanupActs s.combos now acts) D.id = _
  unfold cleanupActs
  rw [mapGet_filter _ D.id (skeys hkeys), hent]
  cases hde : dstepEntry D input now (mapGet s.activeSequences D.id) with
  | none => rfl
  | some a =>
    show (if (match s.combos.find? (fun c => decide (c.id = D.id)) with
        | some c => decide (¬ now - a.startTime > c.maxTimeWindow)
        | none => true) = true then some a else none) =
      (if now - a.startTime > D.maxTimeWindow then none else some a)
    rw [find?_id_unique hD hnd]
    by_cases ht : now - a.startTime > D.maxTimeWindow
    · simp [ht]
    · simp [ht]

/-! ## Multi-call run lemmas -/

theorem matchesInput_self (e : ComboInput) : matchesInput e e = true := by
  simp [matchesInput]

theorem observeRun_cons_eq {i : ComboInput} {t : Int} {rest : List (ComboInput × Int)}
    {s : ComboState} {tr : List String} {s1 : ComboState}
    {trs : List (List String)} {s2 : ComboState}
    (hc : checkCombos i t s = some (tr, s1))
    (hrest : observeRun rest s1 = some (trs, s2)) :
    observeRun ((i, t) :: rest) s = some (tr :: trs, s2) := by
  unfold observeRun
  simp only [hc, hrest]

theorem observeRun_cons_inv {i : ComboInput} {t : Int} {rest : List (ComboInput × Int)}
    {s : ComboState} {res : List (List String)} {s' : ComboState}
    (h : observeRun ((i, t) :: rest) s = some (res, s')) :
    ∃ tr s1 trs, checkCombos i t s = some (tr, s1) ∧
      observeRun rest s1 = some (trs, s') ∧ res = tr :: trs := by
  unfold observeRun at h
  split at h
  next => simp at h
  next tr s1 heq =>
    split at h
    next => simp at h
    next trs s2 heq2 =>
      simp only [Option.some.injEq, Prod.mk.injEq] at h
      obtain ⟨h1, h2⟩ := h
      exact ⟨tr, s1, trs, heq, by rw [heq2, h2], h1.symm⟩

theorem observeRun_nil (s : ComboState) : observeRun [] s = some ([], s) := rfl

theorem observeRun_append_some {l1 l2 : List (ComboInput × Int)} {s : ComboState}
    {r1 : List (List String)} {s1 : ComboState} {r2 : List (List String)}
    {s2 : ComboState}
    (h1 : observeRun l1 s = some (r1, s1)) (h2 : observeRun l2 s1 = some (r2, s2)) :
    observeRun (l1 ++ l2) s = some (r1 ++ r2, s2) := by
  induction l1 generalizing s r1 with
  | nil =>
    rw [observeRun_nil] at h1
    simp only [Option.some.injEq, Prod.mk.injEq] at h1
    obtain ⟨hr, hs⟩ := h1
    subst hr
    subst hs
    simpa using h2
  | cons it l1 ih =>
    obtain ⟨i, t⟩ := it
    obtain ⟨tr, sm, trs, hc, hrest, heq⟩ := observeRun_cons_inv h1
    subst heq
    have := observeRun_cons_eq hc (ih hrest)
    simpa using this

theorem observeRun_append_inv {l1 l2 : List (ComboInput × Int)} {s : ComboState}
    {res : List (List String)} {s' : ComboState}
    (h : observeRun (l1 ++ l2) s = some (res, s')) :
    ∃ r1 s1 r2, observeRun l1 s = some (r1, s1) ∧
      observeRun l2 s1 = some (r2, s') ∧ res = r1 ++ r2 := by
  induction l1 generalizing s res with
  | nil =>
    exact ⟨[], s, res, rfl, by simpa using h, rfl⟩
  | cons it l1 ih =>
    obtain ⟨i, t⟩ := it
    rw [List.cons_append] at h
    obtain ⟨tr, sm, trs, hc, hrest, heq⟩ := observeRun_cons_inv h
    obtain ⟨r1, s1, r2, hr1, hr2, hres⟩ := ih hrest
    exact ⟨tr :: r1, s1, r2, observeRun_cons_eq hc hr1, hr2, by rw [heq, hres]; rfl⟩

/-- One checkCombos call from a well-formed state, with the projection
onto one registered definition. -/
theorem check_step (input : ComboInput) (now : Int) {s : ComboState}
    {D : ComboDefinition} (hwf : StateWF s) (hD : D ∈ s.combos) :
    ∃ tr s', checkCombos input now s = some (tr, s') ∧ s'.combos = s.combos ∧
      StateWF s' ∧
      tr.count D.id = (if dstepTrig D input now (mapGet s.activeSequences D.id) then 1 else 0) ∧
      mapGet s'.activeSequences D.id =
        (match dstepEntry D input now (mapGet s.activeSequences D.id) with
         | some a => if now - a.startTime > D.maxTimeWindow then none else some a
         | none => none) := by
  obtain ⟨tr, s', hcall, hcombos, hwf'⟩ := check_total input now hwf
  obtain ⟨hcount, hent⟩ := check_proj hD hwf.2.1 hwf.2.2.1 hcall
  exact ⟨tr, s', hcall, hcombos, hwf', hcount, hent⟩

theorem dstepEntry_idle_none {D : ComboDefinition} {input : ComboInput} {now : Int}
    (he0 : D.sequence.get? 0 = none) : dstepEntry D input now none = none := by
  simp only [dstepEntry]
  rw [he0]

theorem dstepEntry_some_none {D : ComboDefinition} {input : ComboInput} {now : Int}
    {a : ActiveSeq} (hexp : D.sequence.get? a.inputs.length = none) :
    dstepEntry D input now (some a) = none := by
  simp only [dstepEntry]
  rw [hexp]

theorem dstepTrig_some_none {D : ComboDefinition} {input : ComboInput} {now : Int}
    {a : ActiveSeq} (hexp : D.sequence.get? a.inputs.length = none) :
    dstepTrig D input now (some a) = false := by
  simp only [dstepTrig]
  rw [hexp]

theorem dstepEntry_len_bound (D : ComboDefinition) (input : ComboInput) (now : Int)
    (e : Option ActiveSeq) :
    ∀ a', dstepEntry D input now e = some a' →
      a'.inputs.length ≤ (match e with | none => 0 | some a => a.inputs.length) + 1 := by
  intro a' h
  cases e with
  | none =>
    cases he0 : D.sequence.get? 0 with
    | none => rw [dstepEntry_idle_none he0] at h; simp at h
    | some e0 =>
      rw [dstepEntry_idle_eq he0] at h
      by_cases hm : matchesInput e0 input = true
      · rw [if_pos hm] at h
        simp only [Option.some.injEq] at h
        rw [← h]
        simp
      · rw [if_neg hm] at h
        simp at h
  | some a =>
    cases hexp : D.sequence.get? a.inputs.length with
    | none => rw [dstepEntry_some_none hexp] at h; simp at h
    | some expected =>
      rw [dstepEntry_some_eq hexp] at h
      by_cases hm : matchesInput expected input = true
      · rw [if_pos hm] at h
        by_cases hlen : a.inputs.length + 1 = D.sequence.length
        · rw [if_pos hlen] at h
          simp at h
        · rw [if_neg hlen] at h
          simp only [Option.some.injEq] at h
          rw [← h]
          simp
      · rw [if_neg hm] at h
        simp at h

theorem dstepTrig_true_len {D : ComboDefinition} {input : ComboInput} {now : Int}
    {e : Option ActiveSeq} (h : dstepTrig D input now e = true) :
    ∃ a, e = some a ∧ a.inputs.length + 1 = D.sequence.length := by
  cases e with
  | none => rw [dstepTrig_idle] at h; simp at h
  | some a =>
    cases hexp : D.sequence.get? a.inputs.length with
    | none => rw [dstepTrig_some_none hexp] at h; simp at h
    | some expected =>
      rw [dstepTrig_some_eq hexp] at h
      simp only [Bool.and_eq_true, decide_eq_true_eq] at h
      exact ⟨a, rfl, h.1.2⟩

/-- Feeding inputs to a well-formed matcher in which definition D has
fewer stored plus remaining steps than its sequence length can never
complete D, and grows D's match by at most one step per call. -/
theorem bounded_run {D : ComboDefinition} :
    ∀ (inputs : List (ComboInput × Int)) (s : ComboState) (b : Nat),
    StateWF s → D ∈ s.combos →
    elenD D s ≤ b → b + inputs.length < D.sequence.length →
    ∃ res s', observeRun inputs s = some (res, s') ∧ StateWF s' ∧
      s'.combos = s.combos ∧ (∀ r ∈ res, D.id ∉ r) ∧
      elenD D s' ≤ b + inputs.length ∧ res.length = inputs.length := by
  intro inputs
  induction inputs with
  | nil =>
    intro s b hwf hD helen _
    exact ⟨[], s, rfl, hwf, rfl, by simp, by simpa using helen, rfl⟩
  | cons it rest ih =>
    intro s b hwf hD helen hbound
    obtain ⟨i, t⟩ := it
    obtain ⟨tr, s1, hcall, hcombos, hwf1, hcount, hent⟩ :=
      check_step i t hwf hD
    have htrigf : dstepTrig D i t (mapGet s.activeSequences D.id) = false := by
      by_contra hcon
      rw [Bool.not_eq_false] at hcon
      obtain ⟨a, ha, hlen⟩ := dstepTrig_true_len hcon
      have : elenD D s = a.inputs.length := by
        unfold elenD
        rw [ha]
      simp only [List.length_cons] at hbound
      omega
    have hnotmem : D.id ∉ tr := by
      rw [htrigf] at hcount
      simp only [Bool.false_eq_true, if_false] at hcount
      exact List.count_eq_zero.mp hcount
    have helen1 : elenD D s1 ≤ b + 1 := by
      unfold elenD
      rw [hent]
      cases hde : dstepEntry D i t (mapGet s.activeSequences D.id) with
      | none =>
        show (0 : Nat) ≤ b + 1
        omega
      | some a' =>
        have hb := dstepEntry_len_bound D i t (mapGet s.activeSequences D.id) a' hde
        have heq : (match mapGet s.activeSequences D.id with
            | none => 0 | some a => a.inputs.length) = elenD D s := rfl
        rw [heq] at hb
        by_cases ht : t - a'.startTime > D.maxTimeWindow
        · show (match (if t - a'.startTime > D.maxTimeWindow then none
              else some a' : Option ActiveSeq) with
            | none => 0 | some a => a.inputs.length) ≤ b + 1
          rw [if_pos ht]
          show (0 : Nat) ≤ b + 1
          omega
        · show (match (if t - a'.startTime > D.maxTimeWindow then none
              else some a' : Option ActiveSeq) with
            | none => 0 | some a => a.inputs.length) ≤ b + 1
          rw [if_neg ht]
          show a'.inputs.length ≤ b + 1
          omega
    obtain ⟨res, s', hrun, hwf', hcombos', hres, helen', hreslen⟩ :=
      ih s1 (b + 1) hwf1 (hcombos ▸ hD) helen1 (by simp at hbound ⊢; omega)
    refine ⟨tr :: res, s', observeRun_cons_eq hcall hrun, hwf',
      by rw [hcombos', hcombos], ?_, by simp at hbound ⊢; omega, by simp [hreslen]⟩
    intro r hr
    rcases List.mem_cons.mp hr with he | he
    · rw [he]; exact hnotmem
    · exact hres r he

/-- Feeding the successive mid-sequence steps of D (never reaching the
final step) advances D's stored match one step per call, never reports
D, and keeps the start time. -/
theorem feed_aux {D : ComboDefinition} :
    ∀ (chunk : List ComboInput) (tsr : List Int) (s : ComboState)
      (stored : List ComboInput) (t0 : Int),
    StateWF s → D ∈ s.combos →
    mapGet s.activeSequences D.id = some ⟨stored, t0⟩ →
    stored.length + chunk.length < D.sequence.length →
    (∀ i, i < chunk.length → D.sequence.get? (stored.length + i) = chunk.get? i) →
    tsr.length = chunk.length →
    (∀ t ∈ tsr, t - t0 ≤ D.maxTimeWindow) →
    ∃ res s', observeRun (chunk.zip tsr) s = some (res, s') ∧
      StateWF s' ∧ s'.combos = s.combos ∧
      (∃ stored', mapGet s'.activeSequences D.id = some ⟨stored', t0⟩ ∧
        stored'.length = stored.length + chunk.length) ∧
      (∀ r ∈ res, D.id ∉ r) ∧ res.length = chunk.length := by
  intro chunk
  induction chunk with
  | nil =>
    intro tsr s stored t0 hwf hD hget _ _ _ _
    exact ⟨[], s, rfl, hwf, rfl, ⟨stored, hget, by simp⟩, by simp, rfl⟩
  | cons c0 chunk' ih =>
    intro tsr s stored t0 hwf hD hget hlt hchunk htsr htimes
    cases tsr with
    | nil => simp at htsr
    | cons t tsr' =>
      have hexp : D.sequence.get? stored.length = some c0 := by
        have := hchunk 0 (by simp)
        simpa using this
      have hnotlast : stored.length + 1 ≠ D.sequence.length := by
        simp only [List.length_cons] at hlt
        omega
      obtain ⟨tr, s1, hcall, hcombos, hwf1, hcount, hent⟩ :=
        check_step c0 t hwf hD
      rw [hget] at hcount hent
      have hsurv : ¬ t - t0 > D.maxTimeWindow := by
        have := htimes t (by simp)
        omega
      have hcount0 : List.count D.id tr = 0 := by
        rw [hcount, dstepTrig_some_eq hexp]
        simp [hnotlast]
      have hnotmem : D.id ∉ tr := List.count_eq_zero.mp hcount0
      have hent1 : mapGet s1.activeSequences D.id = some ⟨stored ++ [c0], t0⟩ := by
        rw [hent, dstepEntry_some_eq hexp, if_pos (matchesInput_self c0),
          if_neg hnotlast]
        show (if t - t0 > D.maxTimeWindow then none
          else some (⟨stored ++ [c0], t0⟩ : ActiveSeq)) = some ⟨stored ++ [c0], t0⟩
        rw [if_neg hsurv]
      have hchunk' : ∀ i, i < chunk'.length →
          D.sequence.get? ((stored ++ [c0]).length + i) = chunk'.get? i := by
        intro i hi
        have h2 := hchunk (i + 1) (by simp; omega)
        simp only [List.length_append, List.length_singleton]
        rw [show stored.length + 1 + i = stored.length + (i + 1) by omega]
        simpa using h2
      obtain ⟨res, s', hrun, hwf', hcombos', hstored', hres, hreslen⟩ :=
        ih tsr' s1 (stored ++ [c0]) t0 hwf1 (hcombos ▸ hD) hent1
          (by simp at hlt ⊢; omega) hchunk' (by simpa using htsr)
          (fun t2 ht2 => htimes t2 (by simp [ht2]))
      obtain ⟨stored', hget', hlen'⟩ := hstored'
      have hex : ∃ stored2, mapGet s'.activeSequences D.id = some ⟨stored2, t0⟩ ∧
          stored2.length = stored.length + (c0 :: chunk').length := by
        refine ⟨stored', hget', ?_⟩
        simp only [List.length_append, List.length_singleton] at hlen'
        simp only [List.length_cons]
        omega
      refine ⟨tr :: res, s', observeRun_cons_eq hcall hrun, hwf',
        by rw [hcombos', hcombos], hex, ?_, by simp [hreslen]⟩
      intro r hr
      rcases List.mem_cons.mp hr with he | he
      · rw [he]; exact hnotmem
      · exact hres r he

/-! ## Time order helpers -/

theorem pairwise_headD_le {l : List Int} (h : l.Pairwise (fun a b => a ≤ b)) :
    ∀ t ∈ l, l.headD 0 ≤ t := by
  cases l with
  | nil => intro t ht; simp at ht
  | cons a l =>
    intro t ht
    rcases List.mem_cons.mp ht with he | he
    · simp [he]
    · exact (List.pairwise_cons.mp h).1 t he

theorem pairwise_le_getLastD {l : List Int} (h : l.Pairwise (fun a b => a ≤ b)) :
    ∀ t ∈ l, t ≤ l.getLastD 0 := by
  induction l with
  | nil => intro t ht; simp at ht
  | cons a l ih =>
    intro t ht
    cases l with
    | nil =>
      rcases List.mem_cons.mp ht with he | he
      · simp [he, List.getLastD]
      · simp at he
    | cons b l2 =>
      have hgl : ((a :: b :: l2).getLastD 0) = ((b :: l2).getLastD 0) := by
        simp [List.getLastD_cons]
      rw [hgl]
      have hp := List.pairwise_cons.mp h
      rcases List.mem_cons.mp ht with he | he
      · have hab : a ≤ b := hp.1 b (by simp)
        have hbl : b ≤ (b :: l2).getLastD 0 := ih hp.2 b (by simp)
        rw [he]
        omega
      · exact ih hp.2 t he

theorem headD_mem {l : List Int} (h : l ≠ []) : l.headD 0 ∈ l := by
  cases l with
  | nil => simp at h
  | cons a t => simp

/-! ## Single call shapes -/

/-- Starting a new match: no active entry, the event equals the first
step, nonnegative window. -/
theorem start_call (input : ComboInput) (now : Int) {s : ComboState}
    {D : ComboDefinition} {e0 : ComboInput}
    (hwf : StateWF s) (hD : D ∈ s.combos)
    (hget : mapGet s.activeSequences D.id = none)
    (he0 : D.sequence.get? 0 = some e0)
    (hm : matchesInput e0 input = true)
    (hw : 0 ≤ D.maxTimeWindow) :
    ∃ tr s', checkCombos input now s = some (tr, s') ∧ s'.combos = s.combos ∧
      StateWF s' ∧ D.id ∉ tr ∧
      mapGet s'.activeSequences D.id = some ⟨[input], now⟩ := by
  obtain ⟨tr, s', hcall, hcombos, hwf', hcount, hent⟩ :=
    check_step input now hwf hD
  rw [hget, dstepTrig_idle] at hcount
  rw [hget, dstepEntry_idle_eq he0, if_pos hm] at hent
  simp only [Bool.false_eq_true, if_false] at hcount
  refine ⟨tr, s', hcall, hcombos, hwf', List.count_eq_zero.mp hcount, ?_⟩
  rw [hent]
  show (if now - now > D.maxTimeWindow then none
    else some (⟨[input], now⟩ : ActiveSeq)) = some ⟨[input], now⟩
  rw [if_neg (by omega)]

/-- No active entry and the event does not equal the first step: no
effect for this definition. -/
theorem skip_call (input : ComboInput) (now : Int) {s : ComboState}
    {D : ComboDefinition} {e0 : ComboInput}
    (hwf : StateWF s) (hD : D ∈ s.combos)
    (hget : mapGet s.activeSequences D.id = none)
    (he0 : D.sequence.get? 0 = some e0)
    (hm : matchesInput e0 input = false) :
    ∃ tr s', checkCombos input now s = some (tr, s') ∧ s'.combos = s.combos ∧
      StateWF s' ∧ D.id ∉ tr ∧
      mapGet s'.activeSequences D.id = none := by
  obtain ⟨tr, s', hcall, hcombos, hwf', hcount, hent⟩ :=
    check_step input now hwf hD
  rw [hget, dstepTrig_idle] at hcount
  rw [hget, dstepEntry_idle_eq he0, if_neg (by simp [hm])] at hent
  simp only [Bool.false_eq_true, if_false] at hcount
  exact ⟨tr, s', hcall, hcombos, hwf', List.count_eq_zero.mp hcount, hent⟩

/-- An active entry whose next expected step does not equal the event:
the match is discarded. -/
theorem mismatch_call (input : ComboInput) (now : Int) {s : ComboState}
    {D : ComboDefinition} {a : ActiveSeq} {expected : ComboInput}
    (hwf : StateWF s) (hD : D ∈ s.combos)
    (hget : mapGet s.activeSequences D.id = some a)
    (hexp : D.sequence.get? a.inputs.length = some expected)
    (hm : matchesInput expected input = false) :
    ∃ tr s', checkCombos input now s = some (tr, s') ∧ s'.combos = s.combos ∧
      StateWF s' ∧ D.id ∉ tr ∧
      mapGet s'.activeSequences D.id = none := by
  obtain ⟨tr, s', hcall, hcombos, hwf', hcount, hent⟩ :=
    check_step input now hwf hD
  rw [hget, dstepTrig_some_eq hexp, hm] at hcount
  rw [hget, dstepEntry_some_eq hexp, if_neg (by simp [hm])] at hent
  simp only [Bool.false_and, Bool.false_eq_true, if_false] at hcount
  exact ⟨tr, s', hcall, hcombos, hwf', List.count_eq_zero.mp hcount, hent⟩

/-- The final step of a sequence arrives for an active entry holding all
previous steps: the match is consumed, and the id is reported exactly
when the elapsed time is within the window. -/
theorem complete_call (input : ComboInput) (now : Int) {s : ComboState}
    {D : ComboDefinition} {a : ActiveSeq} {expected : ComboInput}
    (hwf : StateWF s) (hD : D ∈ s.combos)
    (hget : mapGet s.activeSequences D.id = some a)
    (hexp : D.sequence.get? a.inputs.length = some expected)
    (hm : matchesInput expected input = true)
    (hlen : a.inputs.length + 1 = D.sequence.length) :
    ∃ tr s', checkCombos input now s = some (tr, s') ∧ s'.combos = s.combos ∧
      StateWF s' ∧
      tr.count D.id = (if now - a.startTime ≤ D.maxTimeWindow then 1 else 0) ∧
      mapGet s'.activeSequences D.id = none := by
  obtain ⟨tr, s', hcall, hcombos, hwf', hcount, hent⟩ :=
    check_step input now hwf hD
  rw [hget, dstepTrig_some_eq hexp, hm, hlen] at hcount
  rw [hget, dstepEntry_some_eq hexp, if_pos hm, if_pos hlen] at hent
  refine ⟨tr, s', hcall, hcombos, hwf', ?_, hent⟩
  rw [hcount]
  by_cases ht : now - a.startTime ≤ D.maxTimeWindow
  · simp [ht]
  · simp [ht]

theorem span_bound {ts : List Int} {w : Int}
    (hmono : ts.Pairwise (fun a b => a ≤ b))
    (hspan : ts.getLastD 0 - ts.headD 0 ≤ w) :
    ∀ t ∈ ts, t - ts.headD 0 ≤ w := by
  intro t ht
  have h1 := pairwise_le_getLastD hmono t ht
  omega

theorem headD_take {l : List Int} {n : Nat} (hn : 1 ≤ n) :
    (l.take n).headD 0 = l.headD 0 := by
  cases l with
  | nil => simp
  | cons a t =>
    cases n with
    | zero => omega
    | succ m => rfl

/-- Running the first n steps of D (n strictly below the sequence
length) from a state with no active attempt for D builds a partial
match of n steps started at the first call time, reporting nothing. -/
theorem correct_prefix_run (n : Nat) (ts2 : List Int) {D : ComboDefinition}
    {s : ComboState} (hwf : StateWF s) (hD : D ∈ s.combos)
    (hnone : mapGet s.activeSequences D.id = none)
    (hn1 : 1 ≤ n) (hnk : n < D.sequence.length)
    (hts2 : ts2.length = n)
    (htimes : ∀ t ∈ ts2, t - ts2.headD 0 ≤ D.maxTimeWindow) :
    ∃ res s', observeRun ((D.sequence.take n).zip ts2) s = some (res, s') ∧
      StateWF s' ∧ s'.combos = s.combos ∧ res.length = n ∧ (∀ r ∈ res, D.id ∉ r) ∧
      ∃ stored, mapGet s'.activeSequences D.id = some ⟨stored, ts2.headD 0⟩ ∧
        stored.length = n := by
  obtain ⟨e0, rest, hseq⟩ : ∃ e0 rest, D.sequence = e0 :: rest := by
    cases hx : D.sequence with
    | nil => rw [hx] at hnk; simp at hnk
    | cons a l => exact ⟨a, l, rfl⟩
  cases ts2 with
  | nil => simp at hts2; omega
  | cons tf tsr2 =>
    have hhead : ((tf :: tsr2).headD 0) = tf := rfl
    have he0 : D.sequence.get? 0 = some e0 := by rw [hseq]; rfl
    have hw : 0 ≤ D.maxTimeWindow := by
      have h1 := htimes tf (by simp)
      rw [hhead] at h1
      omega
    obtain ⟨tr1, s1, hcall1, hcombos1, hwf1, hnot1, hent1⟩ :=
      start_call e0 tf hwf hD hnone he0 (matchesInput_self e0) hw
    have hlen_rest : n - 1 ≤ rest.length := by
      rw [hseq] at hnk
      simp only [List.length_cons] at hnk
      omega
    have htakelen : (rest.take (n - 1)).length = n - 1 := by
      simp [hlen_rest]
    have hchunk : ∀ i, i < (rest.take (n - 1)).length →
        D.sequence.get? ((⟨[e0], tf⟩ : ActiveSeq).inputs.length + i) =
          (rest.take (n - 1)).get? i := by
      intro i hi
      rw [htakelen] at hi
      rw [hseq]
      show (e0 :: rest).get? (1 + i) = _
      rw [show 1 + i = i + 1 by omega]
      show rest.get? i = (rest.take (n - 1)).get? i
      exact (List.get?_take hi).symm
    have hlt : (⟨[e0], tf⟩ : ActiveSeq).inputs.length + (rest.take (n - 1)).length <
        D.sequence.length := by
      show 1 + (rest.take (n - 1)).length < D.sequence.length
      rw [htakelen]
      omega
    have htsr2len : tsr2.length = (rest.take (n - 1)).length := by
      rw [htakelen]
      simp only [List.length_cons] at hts2
      omega
    have htimes2 : ∀ t ∈ tsr2, t - tf ≤ D.maxTimeWindow := by
      intro t ht
      have h1 := htimes t (by simp [ht])
      rw [hhead] at h1
      exact h1
    obtain ⟨resM, s2, hrunM, hwf2, hcombos2, hstored, hresM, hreslenM⟩ :=
      feed_aux (rest.take (n - 1)) tsr2 s1 [e0] tf hwf1
        (by rw [hcombos1]; exact hD) hent1 hlt hchunk htsr2len htimes2
    obtain ⟨stored', hget2, hlen2⟩ := hstored
    have hzip : (D.sequence.take n).zip (tf :: tsr2) =
        (e0, tf) :: (rest.take (n - 1)).zip tsr2 := by
      rw [hseq, show n = (n - 1) + 1 by omega]
      rfl
    refine ⟨tr1 :: resM, s2, ?_, hwf2, by rw [hcombos2, hcombos1], ?_, ?_,
      ⟨stored', hget2, ?_⟩⟩
    · rw [hzip]
      exact observeRun_cons_eq hcall1 hrunM
    · rw [List.length_cons, hreslenM, htakelen]
      omega
    · intro r hr
      rcases List.mem_cons.mp hr with he | he
      · rw [he]; exact hnot1
      · exact hresM r he
    · rw [hlen2]
      simp only [List.length_singleton]
      rw [htakelen]
      omega

/-- A full correct run of D's steps within the time window, from a
well-formed state with no active attempt for D: only the final call
reports D's id, and it reports it exactly once. -/
theorem combo_correct_run {s : ComboState} {D : ComboDefinition} {ts : List Int}
    (hwf : StateWF s) (hD : D ∈ s.combos)
    (hnone : mapGet s.activeSequences D.id = none)
    (hts : ts.length = D.sequence.length)
    (hmono : ts.Pairwise (fun a b => a ≤ b))
    (hspan : ts.getLastD 0 - ts.headD 0 ≤ D.maxTimeWindow) :
    ∃ res0 rlast s', observeRun (D.sequence.zip ts) s = some (res0 ++ [rlast], s') ∧
      res0.length + 1 = D.sequence.length ∧ (∀ r ∈ res0, D.id ∉ r) ∧
      rlast.count D.id = 1 := by
  have hk : 2 ≤ D.sequence.length := hwf.1 D hD
  have hne : D.sequence ≠ [] := by
    intro h
    rw [h] at hk
    simp at hk
  have htsne : ts ≠ [] := by
    intro h
    rw [h] at hts
    simp at hts
    omega
  have htsk : 2 ≤ ts.length := by omega
  have hdl_head : ts.dropLast.headD 0 = ts.headD 0 := by
    rw [List.dropLast_eq_take]
    exact headD_take (by omega)
  have hdl_len : ts.dropLast.length = D.sequence.length - 1 := by
    rw [List.length_dropLast]
    omega
  have hbound := span_bound hmono hspan
  obtain ⟨resA, sA, hrunA, hwfA, hcombosA, hreslenA, hresA, stored, hgetA, hstoredlen⟩ :=
    correct_prefix_run (D.sequence.length - 1) ts.dropLast hwf hD hnone
      (by omega) (by omega) hdl_len
      (by
        intro t ht
        rw [hdl_head]
        exact hbound t ((List.dropLast_sublist ts).mem ht))
  rw [hdl_head] at hgetA
  have hexpL : D.sequence.get? stored.length = some (D.sequence.getLast hne) := by
    rw [hstoredlen, List.get?_eq_getElem?,
      List.getElem?_eq_getElem (by omega)]
    congr 1
    exact (List.getLast_eq_getElem D.sequence hne).symm
  obtain ⟨trL, sL, hcallL, hcombosL, hwfL, hcountL, hentL⟩ :=
    complete_call (D.sequence.getLast hne) (ts.getLast htsne)
      hwfA (by rw [hcombosA]; exact hD) hgetA hexpL
      (matchesInput_self (D.sequence.getLast hne)) (by rw [hstoredlen]; omega)
  have hcountL1 : trL.count D.id = 1 := by
    rw [hcountL, if_pos]
    have h1 := hbound (ts.getLast htsne) (List.getLast_mem htsne)
    show ts.getLast htsne - ts.headD 0 ≤ D.maxTimeWindow
    exact h1
  have hzip : D.sequence.zip ts =
      (D.sequence.take (D.sequence.length - 1)).zip ts.dropLast ++
        [(D.sequence.getLast hne, ts.getLast htsne)] := by
    conv_lhs =>
      rw [← List.dropLast_append_getLast hne, ← List.dropLast_append_getLast htsne]
    rw [List.zip_append (by rw [List.length_dropLast, List.length_dropLast, hts]),
      List.dropLast_eq_take]
    rfl
  have hrunL : observeRun [(D.sequence.getLast hne, ts.getLast htsne)] sA =
      some ([trL], sL) :=
    observeRun_cons_eq hcallL (observeRun_nil sL)
  refine ⟨resA, trL, sL, ?_, by omega, hresA, hcountL1⟩
  rw [hzip]
  exact observeRun_append_some hrunA hrunL

/-- A run of D's steps with position j replaced by a wrong input, from a
well-formed state with no active attempt for D: no call reports D's id,
and immediately after the wrong call no attempt for D is active. -/
theorem combo_substituted_run {s : ComboState} {D : ComboDefinition} {ts : List Int}
    {j : Nat} {x : ComboInput}
    (hwf : StateWF s) (hD : D ∈ s.combos)
    (hnone : mapGet s.activeSequences D.id = none)
    (hts : ts.length = D.sequence.length)
    (hmono : ts.Pairwise (fun a b => a ≤ b))
    (hspan : ts.getLastD 0 - ts.headD 0 ≤ D.maxTimeWindow)
    (hj : j < D.sequence.length)
    (hx : ∀ e, D.sequence.get? j = some e → matchesInput e x = false) :
    ∃ res s', observeRun ((D.sequence.set j x).zip ts) s = some (res, s') ∧
      res.length = D.sequence.length ∧ (∀ r ∈ res, D.id ∉ r) ∧
      (∀ res1 smid, observeRun (((D.sequence.set j x).zip ts).take (j + 1)) s =
        some (res1, smid) → mapGet smid.activeSequences D.id = none) := by
  have hk : 2 ≤ D.sequence.length := hwf.1 D hD
  have hjt : j < ts.length := by omega
  have hbound := span_bound hmono hspan
  have hzipZ : (D.sequence.set j x).zip ts =
      ((D.sequence.take j).zip (ts.take j)) ++
        ((x, ts.get ⟨j, hjt⟩) :: (D.sequence.drop (j + 1)).zip (ts.drop (j + 1))) := by
    conv_lhs => rw [List.set_eq_take_cons_drop x hj]
    conv_lhs =>
      rw [show ts = ts.take j ++ ts.drop j from (List.take_append_drop j ts).symm]
    rw [List.drop_eq_get_cons hjt,
      List.zip_append (by rw [List.length_take, List.length_take, hts])]
    rfl
  have hZAlen : ((D.sequence.take j).zip (ts.take j)).length = j := by
    rw [List.length_zip, List.length_take, List.length_take, hts]
    omega
  have hZClen : ((D.sequence.drop (j + 1)).zip (ts.drop (j + 1))).length =
      D.sequence.length - (j + 1) := by
    rw [List.length_zip, List.length_drop, List.length_drop, hts]
    omega
  -- Phase A and the wrong call: end with no active attempt for D,
  -- nothing reported.
  have hAB : ∃ resAB sB,
      observeRun (((D.sequence.take j).zip (ts.take j)) ++
        [(x, ts.get ⟨j, hjt⟩)]) s = some (resAB, sB) ∧
      StateWF sB ∧ sB.combos = s.combos ∧ resAB.length = j + 1 ∧
      (∀ r ∈ resAB, D.id ∉ r) ∧ mapGet sB.activeSequences D.id = none := by
    by_cases hj0 : j = 0
    · subst hj0
      obtain ⟨e0, he0⟩ : ∃ e0, D.sequence.get? 0 = some e0 :=
        ⟨_, List.get?_eq_get (by omega)⟩
      obtain ⟨trB, sB, hcallB, hcombosB, hwfB, hnotB, hentB⟩ :=
        skip_call x (ts.get ⟨0, hjt⟩) hwf hD hnone he0 (hx _ he0)
      refine ⟨[trB], sB, ?_, hwfB, hcombosB, rfl, ?_, hentB⟩
      · exact observeRun_cons_eq hcallB (observeRun_nil sB)
      · intro r hr
        rcases List.mem_cons.mp hr with he | he
        · rw [he]; exact hnotB
        · simp at he
    · have hj1 : 1 ≤ j := by omega
      have htakejlen : (ts.take j).length = j := by
        rw [List.length_take]
        omega
      have hheadj : (ts.take j).headD 0 = ts.headD 0 := headD_take hj1
      obtain ⟨resA, sA, hrunA, hwfA, hcombosA, hreslenA, hresA, stored, hgetA, hstoredlen⟩ :=
        correct_prefix_run j (ts.take j) hwf hD hnone hj1 hj htakejlen
          (by
            intro t ht
            rw [hheadj]
            exact hbound t (List.take_subset j ts ht))
      obtain ⟨ej, hej⟩ : ∃ ej, D.sequence.get? j = some ej :=
        ⟨_, List.get?_eq_get hj⟩
      have hexpB : D.sequence.get? (⟨stored, (ts.take j).headD 0⟩ : ActiveSeq).inputs.length =
          some ej := by
        show D.sequence.get? stored.length = some ej
        rw [hstoredlen]
        exact hej
      obtain ⟨trB, sB, hcallB, hcombosB, hwfB, hnotB, hentB⟩ :=
        mismatch_call x (ts.get ⟨j, hjt⟩) hwfA (by rw [hcombosA]; exact hD)
          hgetA hexpB (hx _ hej)
      refine ⟨resA ++ [trB], sB, ?_, hwfB, by rw [hcombosB, hcombosA],
        by rw [List.length_append, hreslenA]; rfl, ?_, hentB⟩
      · exact observeRun_append_some hrunA
          (observeRun_cons_eq hcallB (observeRun_nil sB))
      · intro r hr
        rcases List.mem_append.mp hr with he | he
        · exact hresA r he
        · rw [List.mem_singleton.mp he]
          exact hnotB
  obtain ⟨resAB, sB, hrunAB, hwfB, hcombosB, hlenAB, hresAB, hentB⟩ := hAB
  -- Phase C: too few remaining inputs to complete D.
  have helenB : elenD D sB ≤ 0 := by
    unfold elenD
    rw [hentB]
  obtain ⟨resC, sC, hrunC, hwfC, hcombosC, hresC, helenC, hreslenC⟩ :=
    bounded_run ((D.sequence.drop (j + 1)).zip (ts.drop (j + 1))) sB 0 hwfB
      (by rw [hcombosB]; exact hD) helenB (by rw [hZClen]; omega)
  -- Assemble the full run.
  have hsplit : (D.sequence.set j x).zip ts =
      (((D.sequence.take j).zip (ts.take j)) ++ [(x, ts.get ⟨j, hjt⟩)]) ++
        ((D.sequence.drop (j + 1)).zip (ts.drop (j + 1))) := by
    rw [hzipZ, List.append_assoc]
    rfl
  refine ⟨resAB ++ resC, sC, ?_, ?_, ?_, ?_⟩
  · rw [hsplit]
    exact observeRun_append_some hrunAB hrunC
  · rw [List.length_append, hlenAB, hreslenC, hZClen]
    omega
  · intro r hr
    rcases List.mem_append.mp hr with he | he
    · exact hresAB r he
    · exact hresC r he
  · intro res1 smid hpre
    have ht2 : (((D.sequence.take j).zip (ts.take j)) ++
        ((x, ts.get ⟨j, hjt⟩) :: (D.sequence.drop (j + 1)).zip (ts.drop (j + 1)))).take
          (((D.sequence.take j).zip (ts.take j)).length + 1) =
        ((D.sequence.take j).zip (ts.take j)) ++
          ((x, ts.get ⟨j, hjt⟩) :: (D.sequence.drop (j + 1)).zip (ts.drop (j + 1))).take 1 :=
      List.take_append 1
    rw [hZAlen] at ht2
    have htake : (((D.sequence.set j x)).zip ts).take (j + 1) =
        ((D.sequence.take j).zip (ts.take j)) ++ [(x, ts.get ⟨j, hjt⟩)] := by
      rw [hzipZ, ht2]
      rfl
    rw [htake, hrunAB] at hpre
    simp only [Option.some.injEq, Prod.mk.injEq] at hpre
    rw [← hpre.2]
    exact hentB

/-! ## Concrete inputs and definitions used in witnesses and
counterexamples -/

def kbA : ComboInput := ⟨InputType.keyboard, InputCode.str "KeyA", none⟩

def kbB : ComboInput := ⟨InputType.keyboard, InputCode.str "KeyB", none⟩

def kbX : ComboInput := ⟨InputType.keyboard, InputCode.str "KeyX", none⟩

def soloCombo : ComboDefinition := ⟨"solo", [kbA], 1000⟩

def aabCombo : ComboDefinition := ⟨"aab", [kbA, kbA, kbB], 1000⟩

def abCombo : ComboDefinition := ⟨"ab", [kbA, kbB], 100⟩

/-- Claim C1, counterexample to the claim as stated.
First conjunct: a sequence definition with one step (k = 1), fed its
single step, never reports its id (the call returns the empty list, not
["solo"]), so a correct run does not make the last call report the id.
Third conjunct: for the three-step definition [A, A, B], the substituted
run X, A, A (step 1 replaced by the wrong input X) followed immediately
by the full correct run A, A, B reports nothing on any of the six calls,
although the claim promises that the subsequent full correct run still
completes: the trailing A, A of the substituted run leave a partial
match that makes the following correct run fail. -/
theorem c1_counterexample :
    (observeRun [(kbA, 0)] (addCombo soloCombo initComboState)).map
      (fun r => r.1) = some [[]] ∧
    matchesInput kbA kbX = false ∧
    (observeRun [(kbX, 0), (kbA, 1), (kbA, 2), (kbA, 3), (kbA, 4), (kbB, 5)]
      (addCombo aabCombo initComboState)).map (fun r => r.1) =
      some [[], [], [], [], [], []] := by
  refine ⟨?_, ?_, ?_⟩
  · rfl
  · rfl
  · rfl

/-- Claim C1 (amended): for every definition D with at least two steps,
registered in a well-formed matcher (distinct ids, valid active
entries) with no active attempt for D: (1) feeding D's steps in exact
order at nondecreasing times whose span is at most maxTimeWindow makes
exactly the last call report D's id, exactly once; (2) the same run
with any single step replaced by a wrong input reports D's id on no
call, and immediately after the wrong call the attempt for D is
discarded (so a later full correct run started with no active attempt
for D completes, by part 1). -/
theorem c1_amended :
    (∀ (s : ComboState) (D : ComboDefinition) (ts : List Int),
      StateWF s → D ∈ s.combos →
      mapGet s.activeSequences D.id = none →
      ts.length = D.sequence.length →
      ts.Pairwise (fun a b => a ≤ b) →
      ts.getLastD 0 - ts.headD 0 ≤ D.maxTimeWindow →
      ∃ res0 rlast s', observeRun (D.sequence.zip ts) s = some (res0 ++ [rlast], s') ∧
        res0.length + 1 = D.sequence.length ∧ (∀ r ∈ res0, D.id ∉ r) ∧
        rlast.count D.id = 1) ∧
    (∀ (s : ComboState) (D : ComboDefinition) (ts : List Int) (j : Nat) (x : ComboInput),
      StateWF s → D ∈ s.combos →
      mapGet s.activeSequences D.id = none →
      ts.length = D.sequence.length →
      ts.Pairwise (fun a b => a ≤ b) →
      ts.getLastD 0 - ts.headD 0 ≤ D.maxTimeWindow →
      j < D.sequence.length →
      (∀ e, D.sequence.get? j = some e → matchesInput e x = false) →
      ∃ res s', observeRun ((D.sequence.set j x).zip ts) s = some (res, s') ∧
        res.length = D.sequence.length ∧ (∀ r ∈ res, D.id ∉ r) ∧
        (∀ res1 smid, observeRun (((D.sequence.set j x).zip ts).take (j + 1)) s =
          some (res1, smid) → mapGet smid.activeSequences D.id = none)) :=
  ⟨fun _ _ _ hwf hD hnone hts hmono hspan =>
      combo_correct_run hwf hD hnone hts hmono hspan,
    fun _ _ _ _ _ hwf hD hnone hts hmono hspan hj hx =>
      combo_substituted_run hwf hD hnone hts hmono hspan hj hx⟩

/-- Witness for C1 (amended): both parts applied to the concrete
two-step definition [A, B] with window 100 and call times 0, 50. -/
theorem c1_witness :
    (∃ res0 rlast s', observeRun (abCombo.sequence.zip [0, 50])
        ⟨[abCombo], []⟩ = some (res0 ++ [rlast], s') ∧
      res0.length + 1 = abCombo.sequence.length ∧
      (∀ r ∈ res0, abCombo.id ∉ r) ∧ rlast.count abCombo.id = 1) ∧
    (∃ res s', observeRun ((abCombo.sequence.set 0 kbX).zip [0, 50])
        ⟨[abCombo], []⟩ = some (res, s') ∧
      res.length = abCombo.sequence.length ∧ (∀ r ∈ res, abCombo.id ∉ r) ∧
      (∀ res1 smid, observeRun (((abCombo.sequence.set 0 kbX).zip [0, 50]).take 1)
        ⟨[abCombo], []⟩ = some (res1, smid) →
        mapGet smid.activeSequences abCombo.id = none)) := by
  constructor
  · exact c1_amended.1 ⟨[abCombo], []⟩ abCombo [0, 50] (by decide) (by decide) rfl
      (by decide) (by decide) (by decide)
  · refine c1_amended.2 ⟨[abCombo], []⟩ abCombo [0, 50] 0 kbX (by decide) (by decide)
      rfl (by decide) (by decide) (by decide) (by decide) ?_
    intro e he
    rw [show abCombo.sequence.get? 0 = some kbA from rfl] at he
    injection he with h
    rw [← h]
    rfl

/-- Claim C2: a registered definition (unique id) whose active match
holds all steps but the last, receiving its matching final step: the id
is reported exactly when now - startTimestamp is within maxTimeWindow,
and the active match is discarded regardless of the time check. -/
theorem c2_holds :
    ∀ (s : ComboState) (D : ComboDefinition) (stored : List ComboInput) (t0 : Int)
      (input expected : ComboInput) (now : Int) (tr : List String) (s' : ComboState),
    (s.combos.map (fun c => c.id)).Nodup →
    (s.activeSequences.map Prod.fst).Nodup →
    D ∈ s.combos →
    mapGet s.activeSequences D.id = some ⟨stored, t0⟩ →
    stored.length + 1 = D.sequence.length →
    D.sequence.get? stored.length = some expected →
    matchesInput expected input = true →
    checkCombos input now s = some (tr, s') →
    (D.id ∈ tr ↔ now - t0 ≤ D.maxTimeWindow) ∧
    mapGet s'.activeSequences D.id = none := by
  intro s D stored t0 input expected now tr s' hnd hkeys hD hget hlen hexp hm hrun
  obtain ⟨hcount, hent⟩ := check_proj hD hnd hkeys hrun
  rw [hget, dstepTrig_some_eq hexp, hm, hlen] at hcount
  rw [hget, dstepEntry_some_eq hexp, if_pos hm, if_pos hlen] at hent
  constructor
  · by_cases htime : now - t0 ≤ D.maxTimeWindow
    · have h1 : List.count D.id tr = 1 := by
        rw [hcount]
        simp [htime]
      constructor
      · intro _
        exact htime
      · intro _
        have : 0 < List.count D.id tr := by omega
        exact List.count_pos_iff_mem.mp this
    · have h0 : List.count D.id tr = 0 := by
        rw [hcount]
        simp [htime]
      constructor
      · intro hmem
        exact absurd (List.count_eq_zero.mp h0) (by simp [hmem])
      · intro h
        exact absurd h htime
  · exact hent

def lateCombo : ComboDefinition := ⟨"late", [kbA, kbB], 100⟩

/-- Witness for C2: the two-step definition [A, B] with window 100, one
step matched at time 0, fed B at time 500: no report, match discarded. -/
theorem c2_witness :
    ((lateCombo.id ∈ ([] : List String)) ↔ (500 : Int) - 0 ≤ lateCombo.maxTimeWindow) ∧
    mapGet (⟨[lateCombo], []⟩ : ComboState).activeSequences lateCombo.id = none :=
  c2_holds ⟨[lateCombo], [("late", ⟨[kbA], 0⟩)]⟩ lateCombo [kbA] 0 kbB kbB 500 []
    ⟨[lateCombo], []⟩ (by decide) (by decide) (by decide) rfl (by decide) rfl
    (by decide) rfl

/-- Claim C3: after any checkCombos call returns, every stored active
match whose id resolves to a registered definition is within that
definition's time window: expired matches are swept on every call. -/
theorem c3_holds :
    ∀ (s : ComboState) (input : ComboInput) (now : Int) (tr : List String)
      (s' : ComboState),
    checkCombos input now s = some (tr, s') →
    ∀ p ∈ s'.activeSequences, ∀ c,
      s'.combos.find? (fun d => decide (d.id = p.1)) = some c →
      now - p.2.startTime ≤ c.maxTimeWindow := by
  intro s input now tr s' h p hp c hc
  obtain ⟨acts, hrun, hs'⟩ := checkCombos_inv h
  rw [hs'] at hp hc
  exact (mem_cleanupActs hp).2 c hc

def c3Combo : ComboDefinition := ⟨"c3", [kbA, kbB, kbX], 100⟩

/-- Witness for C3: a call advancing a fresh match at time 50 leaves a
stored match within its definition's window. -/
theorem c3_witness : (50 : Int) - (0 : Int) ≤ (100 : Int) :=
  c3_holds ⟨[c3Combo], [("c3", ⟨[kbA], 0⟩)]⟩ kbB 50 []
    ⟨[c3Combo], [("c3", ⟨[kbA, kbB], 0⟩)]⟩ rfl ("c3", ⟨[kbA, kbB], 0⟩)
    (by decide) c3Combo (by decide)

/-! ## Mapping table claims -/

/-- Claim C4: loadMappings is atomic: any list containing an invalid
binding is rejected as a whole and the stored mappings are unchanged. -/
theorem c4_holds :
    ∀ (st parsed : List RawMapping),
    (∃ m ∈ parsed, validateMapping m = false) →
    (loadMappings parsed st).1 = Except.error "Invalid mapping format" ∧
    (loadMappings parsed st).2 = st := by
  intro st parsed h
  obtain ⟨m, hm, hv⟩ := h
  have hval : validateMappings parsed = false := by
    unfold validateMappings
    rw [List.all_eq_false]
    exact ⟨m, hm, by simp [hv]⟩
  constructor
  · simp [loadMappings, hval]
  · simp [loadMappings, hval]

def goodMapping : RawMapping :=
  ⟨some (JVal.jstr "game"), some (JVal.jstr "jump"), some (JVal.jstr "keyboard"),
    some (JVal.jstr "Space"), none⟩

def badMapping : RawMapping :=
  ⟨some (JVal.jstr "menu"), some JVal.jnull, some (JVal.jstr "mouse"),
    some (JVal.jnum 0), none⟩

/-- Witness for C4: one invalid binding among valid ones rejects the
whole batch without touching the stored list. -/
theorem c4_witness :
    (loadMappings [goodMapping, badMapping] [goodMapping]).1 =
      Except.error "Invalid mapping format" ∧
    (loadMappings [goodMapping, badMapping] [goodMapping]).2 = [goodMapping] :=
  c4_holds [goodMapping] [goodMapping, badMapping]
    ⟨badMapping, by decide, by decide⟩

def emptyCtxMapping : RawMapping :=
  ⟨some (JVal.jstr ""), some (JVal.jstr "jump"), some (JVal.jstr "keyboard"),
    some (JVal.jstr "Space"), none⟩

/-- Claim C7, counterexample to the claim as stated: a binding whose
contextId is the empty string passes validation and is stored by both
addMapping and loadMappings, although the claim promises a rejection. -/
theorem c7_counterexample :
    validateMapping emptyCtxMapping = true ∧
    addMapping emptyCtxMapping [] = (Except.ok (), [emptyCtxMapping]) ∧
    loadMappings [emptyCtxMapping] [] = (Except.ok (), [emptyCtxMapping]) := by
  refine ⟨?_, ?_, ?_⟩
  · rfl
  · rfl
  · rfl

/-- Claim C7 (amended): validation checks field types only. A binding
whose contextId or actionId is the empty string but correctly typed is
accepted and stored by both add and load; a binding failing the type
checks is rejected with an error and not stored. -/
theorem c7_amended :
    (∀ (st : List RawMapping) (m : RawMapping),
      (m.contextId = some (JVal.jstr "") ∨ m.actionId = some (JVal.jstr "")) →
      validateMapping m = true →
      addMapping m st = (Except.ok (), st ++ [m]) ∧
      loadMappings [m] st = (Except.ok (), [m])) ∧
    (∀ (st : List RawMapping) (m : RawMapping),
      validateMapping m = false →
      addMapping m st = (Except.error "Invalid mapping format", st) ∧
      loadMappings [m] st = (Except.error "Invalid mapping format", st)) := by
  constructor
  · intro st m _ hv
    have hall : validateMappings [m] = true := by
      simp [validateMappings, hv]
    exact ⟨by simp [addMapping, hall], by simp [loadMappings, hall]⟩
  · intro st m hv
    have hall : validateMappings [m] = false := by
      simp [validateMappings, hv]
    exact ⟨by simp [addMapping, hall], by simp [loadMappings, hall]⟩

/-- Witness for C7 (amended): the empty-context binding is accepted by
add and load; the type-invalid binding is rejected leaving the store. -/
theorem c7_witness :
    (addMapping emptyCtxMapping [] = (Except.ok (), [] ++ [emptyCtxMapping]) ∧
      loadMappings [emptyCtxMapping] [] = (Except.ok (), [emptyCtxMapping])) ∧
    (addMapping badMapping [goodMapping] =
        (Except.error "Invalid mapping format", [goodMapping]) ∧
      loadMappings [badMapping] [goodMapping] =
        (Except.error "Invalid mapping format", [goodMapping])) :=
  ⟨c7_amended.1 [] emptyCtxMapping (Or.inl rfl) (by decide),
    c7_amended.2 [goodMapping] badMapping (by decide)⟩

/-! ## addCombo claims -/

def comboX1 : ComboDefinition := ⟨"x", [kbA, kbB], 100⟩

def comboX2 : ComboDefinition := ⟨"x", [kbB, kbA], 200⟩

/-- Claim C5, counterexample to the claim as stated: adding a second
definition with an already-registered id keeps both definitions, so the
registry does not hold at most one definition per id. -/
theorem c5_counterexample :
    (addCombo comboX2 (addCombo comboX1 initComboState)).combos =
      [comboX1, comboX2] ∧
    ((addCombo comboX2 (addCombo comboX1 initComboState)).combos.filter
      (fun c => decide (c.id = "x"))).length = 2 := by
  refine ⟨?_, ?_⟩
  · rfl
  · rfl

/-- Claim C5 (amended): addCombo appends unconditionally and never
replaces: after adding a definition whose id is already registered, at
least two definitions with that id are registered. -/
theorem c5_amended :
    ∀ (s : ComboState) (c : ComboDefinition),
    (addCombo c s).combos = s.combos ++ [c] ∧
    (addCombo c s).activeSequences = s.activeSequences ∧
    (∀ d ∈ s.combos, d.id = c.id →
      2 ≤ ((addCombo c s).combos.filter (fun x => decide (x.id = c.id))).length) := by
  intro s c
  refine ⟨rfl, rfl, ?_⟩
  intro d hd hid
  show 2 ≤ ((s.combos ++ [c]).filter (fun x => decide (x.id = c.id))).length
  rw [List.filter_append, List.length_append]
  have h1 : 1 ≤ (s.combos.filter (fun x => decide (x.id = c.id))).length := by
    have hmem : d ∈ s.combos.filter (fun x => decide (x.id = c.id)) :=
      List.mem_filter.mpr ⟨hd, by simp [hid]⟩
    have := List.length_pos.mpr (List.ne_nil_of_mem hmem)
    omega
  have h2 : ([c].filter (fun x => decide (x.id = c.id))).length = 1 := by simp
  omega

/-- Witness for C5 (amended): adding a duplicate of id "x" leaves two
definitions with that id. -/
theorem c5_witness :
    2 ≤ ((addCombo comboX2 (⟨[comboX1], []⟩ : ComboState)).combos.filter
      (fun x => decide (x.id = comboX2.id))).length :=
  (c5_amended ⟨[comboX1], []⟩ comboX2).2.2 comboX1 (by decide) (by decide)

def emptyCombo : ComboDefinition := ⟨"empty", [], 100⟩

def negCombo : ComboDefinition := ⟨"neg", [kbA], 0⟩

/-- Claim C6, counterexample to the claim as stated: addCombo stores a
definition with an empty step sequence, and one with a non-positive
maxTimeWindow, without any error, although the claim promises a
ValidationError leaving the set unchanged. -/
theorem c6_counterexample :
    emptyCombo.sequence = [] ∧
    (addCombo emptyCombo initComboState).combos = [emptyCombo] ∧
    negCombo.maxTimeWindow ≤ 0 ∧
    (addCombo negCombo initComboState).combos = [negCombo] := by
  refine ⟨rfl, rfl, ?_, rfl⟩
  decide

/-- Claim C6 (amended): addCombo performs no validation and cannot
fail: a definition with an empty step sequence or a non-positive
maxTimeWindow is stored unchanged. -/
theorem c6_amended :
    ∀ (s : ComboState) (c : ComboDefinition),
    (c.sequence = [] ∨ c.maxTimeWindow ≤ 0) →
    (addCombo c s).combos = s.combos ++ [c] ∧
    (addCombo c s).activeSequences = s.activeSequences := by
  intro s c _
  exact ⟨rfl, rfl⟩

/-- Witness for C6 (amended): the empty-sequence definition is stored. -/
theorem c6_witness :
    (addCombo emptyCombo (⟨[], []⟩ : ComboState)).combos = [] ++ [emptyCombo] ∧
    (addCombo emptyCombo (⟨[], []⟩ : ComboState)).activeSequences = [] :=
  c6_amended ⟨[], []⟩ emptyCombo (Or.inl rfl)

/-! ## Input buffer claims -/

theorem shiftWhileOver_eq_drop (size : Nat) (l : List TimestampedInput) :
    shiftWhileOver size l = l.drop (l.length - size) := by
  induction l with
  | nil => simp [shiftWhileOver]
  | cons x xs ih =>
    show (if size < xs.length + 1 then shiftWhileOver size xs else x :: xs) = _
    by_cases h : size < xs.length + 1
    · rw [if_pos h, ih]
      have he : (x :: xs).length - size = (xs.length - size) + 1 := by
        simp only [List.length_cons]
        omega
      rw [he]
      rfl
    · rw [if_neg h]
      have he : (x :: xs).length - size = 0 := by
        simp only [List.length_cons]
        omega
      rw [he]
      rfl

theorem bufop_inv (op : BufOp) (s : InputBufferState)
    (h : s.buffer.length ≤ s.bufferSize) :
    (applyBufOp op s).buffer.length ≤ (applyBufOp op s).bufferSize := by
  cases op with
  | add i t =>
    show (if s.bufferSize < (s.buffer ++ [(⟨i, t⟩ : TimestampedInput)]).length
      then (s.buffer ++ [(⟨i, t⟩ : TimestampedInput)]).tail else s.buffer ++ [(⟨i, t⟩ : TimestampedInput)]).length ≤ s.bufferSize
    by_cases hc : s.bufferSize < (s.buffer ++ [(⟨i, t⟩ : TimestampedInput)]).length
    · rw [if_pos hc]
      rw [List.length_tail, List.length_append]
      simp only [List.length_append, List.length_singleton] at hc
      simp only [List.length_singleton]
      omega
    · rw [if_neg hc]
      omega
  | clear =>
    show ([] : List TimestampedInput).length ≤ s.bufferSize
    simp
  | setSize n =>
    show (shiftWhileOver n s.buffer).length ≤ n
    rw [shiftWhileOver_eq_drop, List.length_drop]
    omega
  | setDuration d => exact h

theorem runBufOps_inv : ∀ (ops : List BufOp) (s : InputBufferState),
    s.buffer.length ≤ s.bufferSize →
    (runBufOps ops s).buffer.length ≤ (runBufOps ops s).bufferSize := by
  intro ops
  induction ops with
  | nil => intro s h; exact h
  | cons op ops ih =>
    intro s h
    exact ih (applyBufOp op s) (bufop_inv op s h)

/-- Claim C8: starting from a fresh buffer, after any sequence of
operations the buffer holds at most the capacity; addInput appends at
the newest end and evicts at most one entry from the oldest end;
setBufferSize evicts exactly the excess oldest entries. Order is always
preserved (both shapes are suffixes of the push result). -/
theorem c8_holds :
    (∀ (size : Nat) (dur : Int) (ops : List BufOp),
      (runBufOps ops (initBuffer size dur)).buffer.length ≤
        (runBufOps ops (initBuffer size dur)).bufferSize) ∧
    (∀ (s : InputBufferState) (i : String) (t : Int),
      ∃ k, k ≤ 1 ∧ (addInput i t s).buffer = (s.buffer ++ [(⟨i, t⟩ : TimestampedInput)]).drop k) ∧
    (∀ (s : InputBufferState) (n : Nat),
      (setBufferSize n s).buffer = s.buffer.drop (s.buffer.length - n)) := by
  refine ⟨?_, ?_, ?_⟩
  · intro size dur ops
    exact runBufOps_inv ops (initBuffer size dur) (by simp [initBuffer])
  · intro s i t
    by_cases hc : s.bufferSize < (s.buffer ++ [(⟨i, t⟩ : TimestampedInput)]).length
    · refine ⟨1, le_refl 1, ?_⟩
      show (if s.bufferSize < (s.buffer ++ [(⟨i, t⟩ : TimestampedInput)]).length
        then (s.buffer ++ [(⟨i, t⟩ : TimestampedInput)]).tail else s.buffer ++ [(⟨i, t⟩ : TimestampedInput)]) = _
      rw [if_pos hc, List.drop_one]
    · refine ⟨0, by omega, ?_⟩
      show (if s.bufferSize < (s.buffer ++ [(⟨i, t⟩ : TimestampedInput)]).length
        then (s.buffer ++ [(⟨i, t⟩ : TimestampedInput)]).tail else s.buffer ++ [(⟨i, t⟩ : TimestampedInput)]) = _
      rw [if_neg hc, List.drop_zero]
  · intro s n
    exact shiftWhileOver_eq_drop n s.buffer

/-- Claim C9: getRecentInputs with no window returns all buffered
action ids in insertion order, including entries older than the default
max age; with a window, exactly the ids whose age is within it, in
insertion order. -/
theorem c9_holds :
    ∀ (s : InputBufferState) (now : Int),
    getRecentInputs none now s = s.buffer.map (fun it => it.input) ∧
    (∀ e ∈ s.buffer, now - e.timestamp > s.bufferDuration →
      e.input ∈ getRecentInputs none now s) ∧
    (∀ d, getRecentInputs (some d) now s =
      (s.buffer.filter (fun it => decide (now - it.timestamp ≤ d))).map
        (fun it => it.input)) := by
  intro s now
  refine ⟨rfl, ?_, fun d => rfl⟩
  intro e he _
  show e.input ∈ s.buffer.map (fun it => it.input)
  exact List.mem_map_of_mem _ he

/-- Witness for C9: a stale entry (age 500 over max age 100) is still
returned by the default getter. -/
theorem c9_witness :
    ("a" : String) ∈
      getRecentInputs none 500 ⟨[⟨"a", 0⟩], 10, 100⟩ :=
  (c9_holds ⟨[⟨"a", 0⟩], 10, 100⟩ 500).2.1 ⟨"a", 0⟩ (by simp) (by decide)

/-! ## Reachability claims -/

theorem wf_init : StateWF initComboState := by decide

theorem wf_add {s : ComboState} {c : ComboDefinition} (hwf : StateWF s)
    (hlen : 2 ≤ c.sequence.length) (hfresh : ∀ d ∈ s.combos, d.id ≠ c.id) :
    StateWF (addCombo c s) := by
  obtain ⟨h1, h2, h3, h4, h5⟩ := hwf
  refine ⟨?_, ?_, h3, ?_, ?_⟩
  · intro c' hc'
    rcases List.mem_append.mp hc' with h | h
    · exact h1 c' h
    · rw [List.mem_singleton.mp h]
      exact hlen
  · show ((s.combos ++ [c]).map (fun c => c.id)).Nodup
    rw [List.map_append]
    rw [List.nodup_append]
    refine ⟨h2, by simp, ?_⟩
    intro y hy
    simp only [List.map_cons, List.map_nil, List.mem_singleton]
    intro hyc
    rw [List.mem_map] at hy
    obtain ⟨d, hd, hdy⟩ := hy
    exact hfresh d hd (by rw [hdy, hyc])
  · intro p hp
    obtain ⟨d, hd, hdp⟩ := h4 p hp
    exact ⟨d, List.mem_append.mpr (Or.inl hd), hdp⟩
  · intro p hp c' hc' hcid
    rcases List.mem_append.mp hc' with h | h
    · exact h5 p hp c' h hcid
    · exfalso
      rw [List.mem_singleton.mp h] at hcid
      obtain ⟨d, hd, hdp⟩ := h4 p hp
      exact hfresh d hd (by rw [hdp, ← hcid])

theorem reach_wf : ∀ s, ReachAC s → StateWF s := by
  intro s h
  induction h with
  | init => exact wf_init
  | add hr hlen hfresh ih => exact wf_add ih hlen hfresh
  | check hr hcall ih =>
    rename_i s0 input now tr s' 
    obtain ⟨tr0, s0', hcall0, _, hwf0⟩ := check_total input now ih
    rw [hcall] at hcall0
    simp only [Option.some.injEq, Prod.mk.injEq] at hcall0
    rw [hcall0.2]
    exact hwf0

/-- Claim C10, counterexample to the claim as stated.
First two conjuncts: a one-step (non-empty) definition, fed its step,
stores an active match of 1 input although the claimed bound is
sequence length minus one = 0; the next call crashes (reads a field of
undefined), modelled as none. Third conjunct: with removeCombo allowed,
a completed two-step partial match orphaned by removal and re-adding a
shorter definition under the same id also crashes, even though every
sequence has at least two steps and ids stay pairwise distinct. -/
theorem c10_counterexample :
    ((checkCombos kbA 0 (addCombo soloCombo initComboState)).map
      (fun r => mapGet r.2.activeSequences "solo")) =
      some (some ⟨[kbA], 0⟩) ∧
    ((checkCombos kbA 0 (addCombo soloCombo initComboState)).bind
      (fun r => checkCombos kbA 1 r.2)) = none ∧
    ((checkCombos kbA 0
        (addCombo (⟨"x", [kbA, kbB, kbX], 1000⟩ : ComboDefinition) initComboState)).bind
      (fun r1 => (checkCombos kbB 1 r1.2).bind
        (fun r2 => checkCombos kbX 2
          (addCombo (⟨"x", [kbX, kbB], 1000⟩ : ComboDefinition)
            (removeCombo "x" r2.2))))) = none := by
  refine ⟨?_, ?_, ?_⟩
  · rfl
  · rfl
  · rfl

/-- Claim C10 (amended): in every state reachable from the empty
matcher via addCombo and checkCombos, where every added definition has
at least two steps and a fresh id, every stored active match holds
between 1 and (its definition's sequence length minus 1) matched
inputs, and checkCombos is total (never reads an out-of-range step). -/
theorem c10_amended :
    ∀ s, ReachAC s →
      (∀ p ∈ s.activeSequences, ∀ c ∈ s.combos, c.id = p.1 →
        1 ≤ p.2.inputs.length ∧ p.2.inputs.length ≤ c.sequence.length - 1) ∧
      (∀ input now, (checkCombos input now s).isSome) := by
  intro s hr
  have hwf := reach_wf s hr
  constructor
  · intro p hp c hc hcid
    have h1 := hwf.2.2.2.2 p hp c hc hcid
    have h2 := hwf.1 c hc
    omega
  · intro input now
    obtain ⟨tr, s', hcall, _, _⟩ := check_total input now hwf
    rw [hcall]
    rfl

/-- Witness for C10 (amended): the state with the single two-step
definition [A, B] is reachable, satisfies the bounds and admits total
checkCombos. -/
theorem c10_witness :
    (∀ p ∈ (addCombo abCombo initComboState).activeSequences,
      ∀ c ∈ (addCombo abCombo initComboState).combos, c.id = p.1 →
      1 ≤ p.2.inputs.length ∧ p.2.inputs.length ≤ c.sequence.length - 1) ∧
    (∀ input now, (checkCombos input now (addCombo abCombo initComboState)).isSome) :=
  c10_amended (addCombo abCombo initComboState)
    (ReachAC.add ReachAC.init (by decide) (by decide))
